import Mathlib

/-!
# OmniStore: the console-driven key/value store and its text codec

A shallow embedding of `src/OmniStore/OmniSerializer.h` (`containsColon`,
`writeData`, `readData`) and of the command handling of
`src/OmniStore/OmniStore.cpp` (`trimW`, `startsWith`, `HandleConsoleCommand`,
the store part of `onAttach`).

Conventions of the embedding.

* Text, wide or narrow, is a list of Unicode scalar values (`List Char`).
  `wstringToUtf8` re-encodes a text without changing it as a sequence of
  scalar values, and the characters the code looks at (`':'`, `' '`, `'\t'`,
  `'\n'`) are single code units in either encoding.
* `std::unordered_map<std::string, std::string>` is the list of its entries
  in iteration order.  The container keeps the keys pairwise distinct; the
  position a new key takes is not specified by the container.  The codec is
  therefore studied for every arrangement of the entries, and mappings are
  compared through `find`.
* The file system is reduced to the one file `omniStore`: its text when it
  can be opened for reading, whether it can be opened for writing, and a
  ghost counter of the calls of `writeData`.  The streams transport the text
  unchanged.
-/

namespace OmniStore

/-- Text: `std::string` and `std::wstring` alike. -/
abbrev Str := List Char

/-- The container `std::unordered_map<std::string, std::string>`: its
entries in iteration order. -/
abbrev Store := List (Str × Str)

/-- The file `omniStore` as the program sees it. -/
structure Disk where
  /-- the text of the file; `none` when the file is absent or unreadable -/
  content : Option Str
  /-- whether `std::ofstream` manages to open the file -/
  writable : Bool
  /-- ghost state: how many times `writeData` has been called -/
  writeCalls : Nat
deriving DecidableEq, Repr

/-- The globals of `OmniStore.cpp` together with the file. -/
structure State where
  /-- the global `savedData` -/
  savedData : Store
  /-- the global `retrievedData`, the scratch slot -/
  retrievedData : Str
  /-- the file named by `storeFileName` -/
  file : Disk
deriving DecidableEq, Repr

/-! ## The container -/

/-- The lookup `data.find(key)`: the mapped value, `none` for `end()`. -/
def find (data : Store) (key : Str) : Option Str :=
  match data with
  | [] => none
  | (k, v) :: rest => if k = key then some v else find rest key

/-- The assignment `data[key] = value`: overwrites the value of an existing
key, adds the entry otherwise. -/
def assign (data : Store) (key value : Str) : Store :=
  match data with
  | [] => [(key, value)]
  | (k, v) :: rest =>
    if k = key then (k, value) :: rest else (k, v) :: assign rest key value

/-- The call `data.erase(key)`: the container without the key, and the
number of entries removed. -/
def erase (data : Store) (key : Str) : Store × Nat :=
  (data.filter (fun kv => decide (kv.1 ≠ key)), data.countP (fun kv => decide (kv.1 = key)))

/-- The keys of a container, in iteration order. -/
def keys (data : Store) : List Str := data.map Prod.fst

/-! ## `std::string` primitives -/

/-- The search `s.find(c)`: the index of the first occurrence of `c`, `none`
for `npos`. -/
def strFind (s : Str) (c : Char) : Option Nat :=
  match s with
  | [] => none
  | x :: rest => if x = c then some 0 else (strFind rest c).map (· + 1)

/-- The extraction `s.substr(pos, count)`; every call site has `pos ≤ s.size()`. -/
def substr (s : Str) (pos count : Nat) : Str := (s.drop pos).take count

/-- The extraction `s.substr(pos)`, up to the end of the text. -/
def substrFrom (s : Str) (pos : Nat) : Str := s.drop pos

/-- The element access `s[i]`; at `i = s.size()` the standard yields the null
character. -/
def charAt (s : Str) (i : Nat) : Char := s.getD i (Char.ofNat 0)

/-- The length `wcslen(p)` of a literal. -/
def wcslen (p : Str) : Nat := p.length

/-! ## `OmniSerializer.h` -/

/-- Function `containsColon`: `s.find(':') != std::string::npos`. -/
def containsColon (s : Str) : Bool := (strFind s ':').isSome

/-- The loop of `writeData`: the text sent to the stream, entry by entry. -/
def writeData.emit (data : Store) : Str :=
  match data with
  | [] => []
  | (k, v) :: rest =>
    if k.isEmpty then emit rest
    else if containsColon k || containsColon v then emit rest
    else k ++ ':' :: v ++ '\n' :: emit rest

/-- Function `writeData`: truncates the file and writes one line for each entry; does
nothing when the file cannot be opened. -/
def writeData (file : Disk) (data : Store) : Disk :=
  if !file.writable then
    { file with writeCalls := file.writeCalls + 1 }
  else
    { file with content := some (writeData.emit data), writeCalls := file.writeCalls + 1 }

/-- The successive lines `std::getline` extracts from a text until it fails:
each line ends at a `'\n'` (not stored) or at the end of the text, and the
extraction fails when nothing is left. -/
def getLines (text : Str) : List Str :=
  match text with
  | [] => []
  | c :: rest =>
    if c = '\n' then [] :: getLines rest
    else
      match getLines rest with
      | [] => [[c]]
      | line :: more => (c :: line) :: more

/-- The body of the loop of `readData` for one extracted line. -/
def readData.step (data : Store) (line : Str) : Store :=
  if line.isEmpty then data
  else
    match strFind line ':' with
    | none => data
    | some pos =>
      let key := substr line 0 pos
      let value := substrFrom line (pos + 1)
      if key.isEmpty then data
      else if containsColon key || containsColon value then data
      else assign data key value

/-- Function `readData`: leaves `data` alone when the file cannot be opened; otherwise
clears it and reads the file line by line. -/
def readData (file : Disk) (data : Store) : Store :=
  match file.content with
  | none => data
  | some text => (getLines text).foldl readData.step []

/-! ## `OmniStore.cpp` -/

/-- Function `containsColonW`: `s.find(L':') != std::wstring::npos`. -/
def containsColonW (s : Str) : Bool := (strFind s ':').isSome

/-- Function `wstringToUtf8`: the empty text for the empty text; otherwise the
same text in UTF-8, which as a sequence of scalar values is the text itself
(`WideCharToMultiByte` with `CP_UTF8` does not fail on a non-empty text). -/
def wstringToUtf8 (ws : Str) : Str :=
  if ws.isEmpty then [] else ws

/-- The test `c == L' ' || c == L'\t'` of `trimW`. -/
def isBlank (c : Char) : Bool := c = ' ' || c = '\t'

/-- First loop of `trimW`,
`while (start < s.size() && (s[start] == L' ' || s[start] == L'\t')) start++;`,
run for at most `fuel` rounds. -/
def trimW.skipLeading (s : Str) : Nat → Nat → Nat
  | 0, start => start
  | fuel + 1, start =>
    if start < s.length && isBlank (charAt s start) then skipLeading s fuel (start + 1)
    else start

/-- Second loop of `trimW`,
`while (end > start && (s[end] == L' ' || s[end] == L'\t')) end--;`. -/
def trimW.skipTrailing (s : Str) (start : Nat) : Nat → Nat
  | 0 => 0
  | e + 1 =>
    if e + 1 > start && isBlank (charAt s (e + 1)) then skipTrailing s start e
    else e + 1

/-- Function `trimW`. The first loop advances `start` at most `s.size()` times, which
is the fuel it gets. -/
def trimW (s : Str) : Str :=
  let start := trimW.skipLeading s s.length 0
  if start ≥ s.length then []
  else
    let e := trimW.skipTrailing s start (s.length - 1)
    substr s start (e - start + 1)

/-- Function `startsWith`: the text `s` begins with the literal `pfx`. -/
def startsWith (s pfx : Str) : Bool :=
  let plen := wcslen pfx
  if s.length < plen then false
  else decide (substr s 0 plen = pfx)

/-- The literal `L"savedata "`. -/
def savedataLit : Str := "savedata ".toList

/-- The literal `L"loaddata "`. -/
def loaddataLit : Str := "loaddata ".toList

/-- The literal `L"deletedata "`. -/
def deletedataLit : Str := "deletedata ".toList

/-- Function `HandleConsoleCommand` (the console argument is not used by the body). -/
def HandleConsoleCommand (cmd : Str) (st : State) : State :=
  if startsWith cmd savedataLit then
    let payload := trimW (substrFrom cmd (wcslen savedataLit))
    if payload.isEmpty then st
    else
      match strFind payload ':' with
      | none => st
      | some colonPos =>
        let keyW := trimW (substr payload 0 colonPos)
        let valueW := trimW (substrFrom payload (colonPos + 1))
        if keyW.isEmpty || valueW.isEmpty then st
        else if containsColonW keyW || containsColonW valueW then st
        else
          let key := wstringToUtf8 keyW
          let value := wstringToUtf8 valueW
          if containsColon key || containsColon value then st
          else
            let saved := assign st.savedData key value
            { st with savedData := saved, file := writeData st.file saved }
  else if startsWith cmd loaddataLit then
    let keyW := trimW (substrFrom cmd (wcslen loaddataLit))
    if keyW.isEmpty then st
    else if containsColonW keyW then st
    else
      let key := wstringToUtf8 keyW
      if containsColon key then st
      else
        match find st.savedData key with
        | some value => { st with retrievedData := value }
        | none => { st with retrievedData := [] }
  else if startsWith cmd deletedataLit then
    let keyW := trimW (substrFrom cmd (wcslen deletedataLit))
    if keyW.isEmpty then st
    else if containsColonW keyW then st
    else
      let key := wstringToUtf8 keyW
      if containsColon key then st
      else
        let erased := erase st.savedData key
        if erased.2 > 0 then
          { st with savedData := erased.1, file := writeData st.file erased.1 }
        else
          { st with savedData := erased.1 }
  else st

/-- The store part of `onAttach`: read the file when it exists, create it from
the current (empty) container otherwise. -/
def onAttach (st : State) : State :=
  if st.file.content.isSome then
    { st with savedData := readData st.file st.savedData }
  else
    { st with file := writeData st.file st.savedData }

/-- Handling a sequence of command lines, one call each, in order. -/
def run (cmds : List Str) (st : State) : State :=
  cmds.foldl (fun s cmd => HandleConsoleCommand cmd s) st

/-! ## The rules of the specification, in its own words -/

/-- The reference trim of the specification: the text without its longest
leading run and its longest trailing run of spaces and tabs. -/
def stripBlanks (s : Str) : Str :=
  (s.dropWhile isBlank).rdropWhile isBlank

/-- The key side of the remainder `r` of a savedata line: `r` trimmed, cut
before its first `':'`, trimmed again. -/
def keyPart (r : Str) : Str :=
  stripBlanks ((stripBlanks r).takeWhile (fun c => decide (c ≠ ':')))

/-- The value side of the remainder `r` of a savedata line: `r` trimmed, cut
after its first `':'`, trimmed again. -/
def valuePart (r : Str) : Str :=
  stripBlanks ((stripBlanks r).dropWhile (fun c => decide (c ≠ ':'))).tail

/-- Parsing rule 3 of the specification for the remainder `r` of a savedata
line: trim it, split it at the first `':'`, trim both sides; there is a
command when a `':'` is found, both sides are non-empty and the value side
contains no further `':'` (the key side, cut before the first one, cannot). -/
def specSave (r : Str) : Option (Str × Str) :=
  if ':' ∈ stripBlanks r ∧ keyPart r ≠ [] ∧ valuePart r ≠ [] ∧ ':' ∉ valuePart r then
    some (keyPart r, valuePart r)
  else none

/-- Parsing rule 4 of the specification for the remainder `r` of a loaddata
or deletedata line: the trimmed remainder is the key, unless it is empty or
contains `':'`. -/
def specKey (r : Str) : Option Str :=
  let k := stripBlanks r
  if k ≠ [] ∧ ':' ∉ k then some k else none

/-- An entry the data model allows and the line format can carry: a non-empty
key, and no `':'` and no line break in key or value. -/
def EntryOk (e : Str × Str) : Prop :=
  e.1 ≠ [] ∧ ':' ∉ e.1 ∧ ':' ∉ e.2 ∧ '\n' ∉ e.1 ∧ '\n' ∉ e.2

/-- The store as the process starts it: both globals empty. -/
def freshState (d : Disk) : State :=
  { savedData := [], retrievedData := [], file := d }

/-- A line is an accepted savedata command when handling it reaches the
assignment `savedData[key] = value`; the call of `writeData` that follows it
shows in the ghost counter, read here off a store that starts empty (where no
other branch calls `writeData`). -/
def acceptedSave (cmd : Str) : Bool :=
  startsWith cmd savedataLit &&
    decide ((HandleConsoleCommand cmd (freshState ⟨none, true, 0⟩)).file.writeCalls = 1)

instance : DecidablePred EntryOk := fun e => by
  unfold EntryOk
  infer_instance

/-! ## Sample data -/

/-- A writable file that does not exist yet and has never been written. -/
def disk0 : Disk := { content := none, writable := true, writeCalls := 0 }

/-- A two-entry mapping. -/
def mapAB : Store := [("a".toList, "1".toList), ("b".toList, "2".toList)]

/-- The entries of `mapAB` in the other order. -/
def mapBA : Store := [("b".toList, "2".toList), ("a".toList, "1".toList)]

/-- A mapping left over from before a reload. -/
def mapZ : Store := [("z".toList, "9".toList)]

/-- A one-entry mapping whose value holds a line break. -/
def mapBreak : Store := [("a".toList, "b\nc".toList)]

/-- A savedata line whose value holds a line break. -/
def cmdBreak : Str := "savedata a:b\nc".toList

/-- A short session: two saves, a delete and a load. -/
def session : List Str :=
  ["savedata a:1".toList, "savedata  b : 2 ".toList, "deletedata a".toList,
   "loaddata b".toList]

/-- The state after `savedata a:1` on a fresh store. -/
def stA : State :=
  { savedData := [("a".toList, "1".toList)], retrievedData := "old".toList,
    file := { content := some "a:1\n".toList, writable := true, writeCalls := 1 } }

/-! ## `trimW` with every access checked -/

/-- The element read `s[i]` as an access that fails outside `0 ≤ i < s.size()`. -/
def readAt (s : Str) (i : Nat) : Option Char :=
  if i < s.length then some (charAt s i) else none

/-- First loop of `trimW`, each read of `s[start]` checked. -/
def trimW.skipLeadingChecked (s : Str) : Nat → Nat → Option Nat
  | 0, start => some start
  | fuel + 1, start =>
    if start < s.length then
      match readAt s start with
      | none => none
      | some c => if isBlank c then skipLeadingChecked s fuel (start + 1) else some start
    else some start

/-- Second loop of `trimW`, each read of `s[end]` checked. -/
def trimW.skipTrailingChecked (s : Str) (start : Nat) : Nat → Option Nat
  | 0 => some 0
  | e + 1 =>
    if e + 1 > start then
      match readAt s (e + 1) with
      | none => none
      | some c => if isBlank c then skipTrailingChecked s start e else some (e + 1)
    else some (e + 1)

/-- The extraction `s.substr(pos, count)` as a call that fails (throws
`std::out_of_range`) when `pos > s.size()`. -/
def substrChecked (s : Str) (pos count : Nat) : Option Str :=
  if pos ≤ s.length then some (substr s pos count) else none

/-- Function `trimW` with every element read and the final `substr` checked,
and with the unsigned subtractions `s.size() - 1` and `end - start` checked
against wrapping: `none` as soon as one of them goes wrong. -/
def trimWChecked (s : Str) : Option Str :=
  match trimW.skipLeadingChecked s s.length 0 with
  | none => none
  | some start =>
    if start ≥ s.length then some []
    else if s.length < 1 then none
    else
      match trimW.skipTrailingChecked s start (s.length - 1) with
      | none => none
      | some e => if e < start then none else substrChecked s start (e - start + 1)

/-! ## More rules of the specification -/

/-- The text of a file whose lines are `ls`, each line closed by `'\n'`. -/
def fileOfLines (ls : List Str) : Str :=
  match ls with
  | [] => []
  | l :: rest => l ++ '\n' :: fileOfLines rest

/-- A malformed line of the file format: no `':'`, or nothing before the first
`':'`. -/
def Malformed (line : Str) : Prop :=
  ':' ∉ line ∨ line.head? = some ':'

instance : DecidablePred Malformed := fun l => by
  unfold Malformed
  infer_instance

/-- The entries `encode` keeps: non-empty key, no `':'` in key or value. -/
def emittable (e : Str × Str) : Bool :=
  decide (e.1 ≠ [] ∧ ':' ∉ e.1 ∧ ':' ∉ e.2)

/-- The line `key:value\n` of one entry. -/
def entryLine (e : Str × Str) : Str :=
  e.1 ++ ':' :: e.2 ++ ['\n']

/-- A text that neither begins nor ends with a space or a tab. -/
def NoBlankEnds (s : Str) : Prop :=
  (∀ c, s.head? = some c → isBlank c = false) ∧ (∀ c, s.getLast? = some c → isBlank c = false)

/-- A disk whose file holds the text `text`. -/
def diskOf (text : Str) : Disk :=
  { content := some text, writable := true, writeCalls := 0 }

/-- A file with three lines for the key `k`, the middle one invalid. -/
def textDup : Str := "k:1\nz:0\nk:2:3\nk:4\ny:5\n".toList

/-- A mapping with an entry for each reason `writeData` skips one, and two
entries it keeps. -/
def mapMixed : Store :=
  [("a".toList, "1".toList), ([], "x".toList), ("b:c".toList, "2".toList),
   ("d".toList, "3:4".toList), ("e".toList, [])]

/-- A line with two `':'`. -/
def lineTwoColons : Str := "a:b:c".toList

/-- A file with a malformed line, a key given twice and a line with two
`':'`. -/
def textMessy : Str := "a:1\nnocolon\n:x\na:2\nb:c:d\n\ne:\nf:g".toList

/-! ## Facts about the primitives -/

theorem charAt_of_lt (s : Str) (i : Nat) (h : i < s.length) : charAt s i = s[i] := by
  simp [charAt, List.getD_eq_getElem?_getD, h]

theorem skipLeading_eq (s : Str) : ∀ fuel i, s.length ≤ i + fuel →
    trimW.skipLeading s fuel i = i + ((s.drop i).takeWhile isBlank).length := by
  intro fuel
  induction fuel with
  | zero =>
    intro i h
    rw [List.drop_eq_nil_of_le (by omega : s.length ≤ i)]
    rfl
  | succ n ih =>
    intro i h
    rw [trimW.skipLeading]
    by_cases hi : i < s.length
    · have hd : s.drop i = s[i] :: s.drop (i + 1) := List.drop_eq_getElem_cons hi
      have hc := charAt_of_lt s i hi
      rw [hd, List.takeWhile_cons, hc]
      by_cases hb : isBlank s[i] = true
      · rw [hb, ih (i + 1) (by omega)]
        simp only [hi, decide_True, Bool.and_self, if_true, List.length_cons]
        omega
      · have hb' : isBlank s[i] = false := by simpa using hb
        rw [hb']
        simp
    · rw [List.drop_eq_nil_of_le (by omega : s.length ≤ i)]
      simp [hi]

/-- The fuel `s.length` is enough: the first loop of `trimW` has left through
its condition, and more fuel gives the same index. -/
theorem skipLeading_exit (s : Str) :
    trimW.skipLeading s s.length 0 ≤ s.length ∧
    ¬ (trimW.skipLeading s s.length 0 < s.length ∧
        isBlank (charAt s (trimW.skipLeading s s.length 0)) = true) ∧
    ∀ n, trimW.skipLeading s (s.length + n) 0 = trimW.skipLeading s s.length 0 := by
  have h0 : trimW.skipLeading s s.length 0 = (s.takeWhile isBlank).length := by
    simpa using skipLeading_eq s s.length 0 (by omega)
  have hsplit : s.takeWhile isBlank ++ s.dropWhile isBlank = s :=
    List.takeWhile_append_dropWhile isBlank s
  have hlen : (s.takeWhile isBlank).length + (s.dropWhile isBlank).length = s.length := by
    have := congrArg List.length hsplit
    rwa [List.length_append] at this
  refine ⟨by rw [h0]; omega, ?_, ?_⟩
  · rw [h0]
    rintro ⟨hlt, hb⟩
    have hdrop : s.drop (s.takeWhile isBlank).length = s.dropWhile isBlank := by
      have := List.drop_left (s.takeWhile isBlank) (s.dropWhile isBlank)
      rwa [hsplit] at this
    have hcons : s.dropWhile isBlank
        = s[(s.takeWhile isBlank).length] :: s.drop ((s.takeWhile isBlank).length + 1) := by
      rw [← hdrop]; exact List.drop_eq_getElem_cons hlt
    have hne : s.dropWhile isBlank ≠ [] := by
      intro e; rw [e] at hlen; simp at hlen; omega
    have h1 := List.head_dropWhile_not isBlank s hne
    have h2 : (s.dropWhile isBlank).head hne = s[(s.takeWhile isBlank).length] := by
      simp [hcons]
    rw [h2, ← charAt_of_lt s _ hlt, hb] at h1
    exact absurd h1 (by simp)
  · intro n
    rw [h0]
    simpa using skipLeading_eq s (s.length + n) 0 (by omega)

theorem take_drop_succ (s : Str) (a e : Nat) (hae : a ≤ e) (he : e < s.length) :
    (s.drop a).take (e - a + 1) = (s.drop a).take (e - a) ++ [charAt s e] := by
  rw [List.take_succ, List.getElem?_drop, charAt_of_lt s e he]
  have : a + (e - a) = e := by omega
  simp [this, he]

theorem skipTrailing_spec (s : Str) (a : Nat) (hna : isBlank (charAt s a) = false) :
    ∀ e, a ≤ e → e < s.length →
      substr s a (trimW.skipTrailing s a e - a + 1)
        = ((s.drop a).take (e - a + 1)).rdropWhile isBlank := by
  intro e
  induction e with
  | zero =>
    intro hae he
    have ha : a = 0 := by omega
    subst ha
    have h0 := take_drop_succ s 0 0 hae he
    simp only [Nat.sub_self, Nat.zero_add, List.drop_zero, List.take_zero, List.nil_append] at h0
    simp only [trimW.skipTrailing, substr, Nat.sub_self, Nat.zero_add, List.drop_zero, h0]
    rw [List.rdropWhile_singleton, hna]
    simp
  | succ e ih =>
    intro hae he
    rw [take_drop_succ s a (e + 1) hae he]
    by_cases hb : isBlank (charAt s (e + 1)) = true
    · have hlt : a < e + 1 := by
        rcases Nat.lt_or_ge a (e + 1) with h | h
        · exact h
        · have : a = e + 1 := by omega
          rw [this] at hna; rw [hna] at hb; exact absurd hb (by simp)
      rw [List.rdropWhile_concat_pos _ _ _ hb]
      have h1 : e + 1 - a = e - a + 1 := by omega
      rw [h1, ← ih (by omega) (by omega)]
      simp [trimW.skipTrailing, hlt, hb]
    · rw [List.rdropWhile_concat_neg _ _ _ hb]
      simp [trimW.skipTrailing, hb, substr, take_drop_succ s a (e + 1) hae he]

theorem trimW_eq_stripBlanks (s : Str) : trimW s = stripBlanks s := by
  have hstart : trimW.skipLeading s s.length 0 = (s.takeWhile isBlank).length := by
    simpa using skipLeading_eq s s.length 0 (by omega)
  have hsplit : s.takeWhile isBlank ++ s.dropWhile isBlank = s :=
    List.takeWhile_append_dropWhile isBlank s
  have hdrop : s.drop (s.takeWhile isBlank).length = s.dropWhile isBlank := by
    have := List.drop_left (s.takeWhile isBlank) (s.dropWhile isBlank)
    rwa [hsplit] at this
  have hlen : (s.takeWhile isBlank).length + (s.dropWhile isBlank).length = s.length := by
    have := congrArg List.length hsplit
    rwa [List.length_append] at this
  unfold trimW stripBlanks
  simp only [hstart]
  by_cases hge : (s.takeWhile isBlank).length ≥ s.length
  · have : s.dropWhile isBlank = [] := List.eq_nil_of_length_eq_zero (by omega)
    simp [hge, this]
  · have hlt : (s.takeWhile isBlank).length < s.length := by omega
    have hne : s.dropWhile isBlank ≠ [] := by
      intro h; rw [h] at hlen; simp at hlen; omega
    have hhead : isBlank (charAt s (s.takeWhile isBlank).length) = false := by
      rw [charAt_of_lt s _ hlt]
      have h1 := List.head_dropWhile_not isBlank s hne
      have h2 : (s.dropWhile isBlank).head hne = s[(s.takeWhile isBlank).length] := by
        have h3 : s.dropWhile isBlank = s[(s.takeWhile isBlank).length] :: s.drop ((s.takeWhile isBlank).length + 1) := by
          rw [← hdrop]; exact List.drop_eq_getElem_cons hlt
        simp [h3]
      rw [← h2]; exact h1
    rw [if_neg hge]
    show substr s _ _ = _
    rw [skipTrailing_spec s _ hhead (s.length - 1) (by omega) (by omega), hdrop]
    rw [List.take_of_length_le (by omega)]

theorem strFind_eq_none_iff (s : Str) (c : Char) : strFind s c = none ↔ c ∉ s := by
  induction s with
  | nil => simp [strFind]
  | cons x rest ih =>
    by_cases h : x = c
    · simp [strFind, h]
    · have h' : ¬ c = x := fun e => h e.symm
      simp [strFind, h, h', ih]

theorem strFind_some_split (s : Str) (c : Char) : ∀ i, strFind s c = some i →
    s.take i = s.takeWhile (fun x => decide (x ≠ c)) ∧
    s.drop (i + 1) = (s.dropWhile (fun x => decide (x ≠ c))).tail := by
  induction s with
  | nil => intro i h; simp [strFind] at h
  | cons x rest ih =>
    intro i h
    by_cases hx : x = c
    · simp [strFind, hx] at h
      subst h
      simp [hx, List.takeWhile_cons, List.dropWhile_cons]
    · simp only [strFind, hx, if_false, Option.map_eq_some'] at h
      obtain ⟨j, hj, rfl⟩ := h
      obtain ⟨h1, h2⟩ := ih j hj
      simp [hx, List.takeWhile_cons, List.dropWhile_cons, h1, h2]

theorem strFind_isSome_iff (s : Str) (c : Char) : (strFind s c).isSome = true ↔ c ∈ s := by
  rw [← not_iff_not, ← strFind_eq_none_iff]
  cases strFind s c <;> simp

theorem containsColon_iff (s : Str) : containsColon s = true ↔ ':' ∈ s :=
  strFind_isSome_iff s ':'

theorem containsColon_eq_false_iff (s : Str) : containsColon s = false ↔ ':' ∉ s := by
  rw [← containsColon_iff]; simp

theorem containsColonW_iff (s : Str) : containsColonW s = true ↔ ':' ∈ s :=
  strFind_isSome_iff s ':'

theorem strFind_append_cons (k v : Str) (c : Char) (h : c ∉ k) :
    strFind (k ++ c :: v) c = some k.length := by
  induction k with
  | nil => simp [strFind]
  | cons x rest ih =>
    have hx : ¬ x = c := fun e => h (by simp [e])
    have hr : c ∉ rest := fun m => h (List.mem_cons_of_mem _ m)
    simp [strFind, hx, ih hr]

theorem wstringToUtf8_eq (s : Str) : wstringToUtf8 s = s := by
  cases s <;> simp [wstringToUtf8]

/-! ## Facts about the container -/

theorem find_assign (d : Store) (k v k' : Str) :
    find (assign d k v) k' = if k' = k then some v else find d k' := by
  induction d with
  | nil =>
    by_cases h : k' = k
    · simp [assign, find, h]
    · have h' : ¬ k = k' := fun e => h e.symm
      simp [assign, find, h, h']
  | cons e rest ih =>
    obtain ⟨a, b⟩ := e
    by_cases ha : a = k
    · subst ha
      by_cases h : k' = a
      · simp [assign, find, h]
      · have h' : ¬ a = k' := fun e => h e.symm
        simp [assign, find, h, h']
    · by_cases hk : a = k'
      · have h : ¬ k' = k := fun e => ha (hk.trans e)
        simp [assign, find, ha, hk, h]
      · simp [assign, find, ha, hk, ih]

theorem find_erase (d : Store) (k k' : Str) :
    find (erase d k).1 k' = if k' = k then none else find d k' := by
  induction d with
  | nil => simp [erase, find]
  | cons e rest ih =>
    obtain ⟨a, b⟩ := e
    simp only [erase] at ih ⊢
    by_cases ha : a = k
    · subst ha
      by_cases h : k' = a
      · simpa [List.filter_cons, find, h] using ih
      · have h' : ¬ a = k' := fun e => h e.symm
        simpa [List.filter_cons, find, h, h'] using ih
    · by_cases hk : a = k'
      · have h : ¬ k' = k := fun e => ha (hk.trans e)
        simp [List.filter_cons, find, ha, hk, h]
      · simpa [List.filter_cons, find, ha, hk] using ih

theorem find_eq_none_iff (d : Store) (k : Str) : find d k = none ↔ k ∉ keys d := by
  induction d with
  | nil => simp [find, keys]
  | cons e rest ih =>
    obtain ⟨a, b⟩ := e
    by_cases ha : a = k
    · simp [find, keys, ha]
    · have h' : ¬ k = a := fun e => ha e.symm
      simp only [keys] at ih
      simp [find, keys, ha, h', ih]

theorem erase_count_eq_zero_iff (d : Store) (k : Str) : (erase d k).2 = 0 ↔ find d k = none := by
  rw [find_eq_none_iff]
  simp only [erase, keys, List.countP_eq_zero, List.mem_map, not_exists, not_and,
    decide_eq_true_eq]

theorem erase_of_absent (d : Store) (k : Str) (h : find d k = none) : (erase d k).1 = d := by
  rw [find_eq_none_iff] at h
  simp only [erase, List.filter_eq_self]
  intro e he
  have : e.1 ≠ k := fun eq => h (by rw [← eq]; exact List.mem_map_of_mem _ he)
  simpa using this

theorem erase_erase (d : Store) (k : Str) : (erase (erase d k).1 k).1 = (erase d k).1 := by
  apply erase_of_absent
  rw [find_erase]; simp

theorem assign_assign (d : Store) (k v : Str) : assign (assign d k v) k v = assign d k v := by
  induction d with
  | nil => simp [assign]
  | cons e rest ih =>
    obtain ⟨a, b⟩ := e
    by_cases ha : a = k
    · simp [assign, ha]
    · simp [assign, ha, ih]

theorem mem_assign (d : Store) (k v : Str) (e : Str × Str) (h : e ∈ assign d k v) :
    e = (k, v) ∨ e ∈ d := by
  induction d with
  | nil => simpa [assign] using h
  | cons x rest ih =>
    obtain ⟨a, b⟩ := x
    by_cases ha : a = k
    · simp only [assign, ha, if_true, List.mem_cons] at h
      rcases h with h | h
      · exact Or.inl h
      · exact Or.inr (List.mem_cons_of_mem _ h)
    · simp only [assign, ha, if_false, List.mem_cons] at h
      rcases h with h | h
      · exact Or.inr (by simp [h])
      · rcases ih h with h | h
        · exact Or.inl h
        · exact Or.inr (List.mem_cons_of_mem _ h)

theorem keys_assign_mem (d : Store) (k v x : Str) (h : x ∈ keys (assign d k v)) :
    x = k ∨ x ∈ keys d := by
  simp only [keys, List.mem_map] at h ⊢
  obtain ⟨e, he, rfl⟩ := h
  rcases mem_assign d k v e he with h | h
  · exact Or.inl (by rw [h])
  · exact Or.inr ⟨e, h, rfl⟩

theorem nodup_keys_assign (d : Store) (k v : Str) (h : (keys d).Nodup) :
    (keys (assign d k v)).Nodup := by
  induction d with
  | nil => simp [assign, keys]
  | cons x rest ih =>
    obtain ⟨a, b⟩ := x
    have h' : a ∉ keys rest ∧ (keys rest).Nodup := by simpa [keys] using h
    by_cases ha : a = k
    · simpa [assign, ha, keys] using h
    · have hk := ih h'.2
      have hn : a ∉ keys (assign rest k v) := by
        intro m
        rcases keys_assign_mem rest k v a m with e | e
        · exact ha e
        · exact h'.1 e
      simp only [assign, ha, if_false]
      simp only [keys, List.map_cons, List.nodup_cons] at hk hn ⊢
      exact ⟨hn, hk⟩

theorem mem_erase (d : Store) (k : Str) (e : Str × Str) (h : e ∈ (erase d k).1) : e ∈ d := by
  simp only [erase, List.mem_filter] at h
  exact h.1

theorem nodup_keys_erase (d : Store) (k : Str) (h : (keys d).Nodup) :
    (keys (erase d k).1).Nodup := by
  simp only [keys, erase] at h ⊢
  exact (List.filter_sublist d).map Prod.fst |>.nodup h

/-! ## Facts about the command handler -/

theorem startsWith_iff (s p : Str) : startsWith s p = true ↔ ∃ r, s = p ++ r := by
  unfold startsWith wcslen substr
  constructor
  · intro h
    by_cases hl : s.length < p.length
    · simp [hl] at h
    · simp only [hl, if_false, List.drop_zero, decide_eq_true_eq] at h
      refine ⟨s.drop p.length, ?_⟩
      conv_lhs => rw [← List.take_append_drop p.length s, h]
  · rintro ⟨r, rfl⟩
    simp

theorem startsWith_append (p r : Str) : startsWith (p ++ r) p = true :=
  (startsWith_iff _ _).2 ⟨r, rfl⟩

theorem substrFrom_append (p r : Str) : substrFrom (p ++ r) (wcslen p) = r := by
  simp [substrFrom, wcslen]

theorem isEmpty_eq_true_iff (s : Str) : s.isEmpty = true ↔ s = [] := by
  cases s <;> simp

theorem mem_of_mem_stripBlanks (s : Str) (c : Char) (h : c ∈ stripBlanks s) : c ∈ s := by
  unfold stripBlanks at h
  exact (List.dropWhile_suffix isBlank).subset
    ((List.rdropWhile_prefix isBlank (l := s.dropWhile isBlank)).subset h)

theorem not_mem_takeWhile_ne (s : Str) (c : Char) :
    c ∉ s.takeWhile (fun x => decide (x ≠ c)) := by
  intro h
  have := List.mem_takeWhile_imp h
  simp at this

theorem specSave_eq_of_find_none (r : Str) (h : strFind (stripBlanks r) ':' = none) :
    specSave r = none := by
  rw [strFind_eq_none_iff] at h
  simp [specSave, h]

theorem not_mem_keyPart (r : Str) : ':' ∉ keyPart r :=
  fun h => not_mem_takeWhile_ne _ _ (mem_of_mem_stripBlanks _ _ h)

theorem handle_save (r : Str) (st : State) :
    HandleConsoleCommand (savedataLit ++ r) st =
      match specSave r with
      | some (k, v) =>
        { st with savedData := assign st.savedData k v,
                  file := writeData st.file (assign st.savedData k v) }
      | none => st := by
  unfold HandleConsoleCommand
  simp only [startsWith_append, substrFrom_append, if_true, trimW_eq_stripBlanks,
    wstringToUtf8_eq]
  cases hf : strFind (stripBlanks r) ':' with
  | none =>
    rw [specSave_eq_of_find_none r hf]
    simp
  | some i =>
    have hmem : ':' ∈ stripBlanks r := by
      rw [← strFind_isSome_iff, hf]; rfl
    obtain ⟨h1, h2⟩ := strFind_some_split _ _ _ hf
    have hne : (stripBlanks r).isEmpty = false := by
      cases hp : stripBlanks r with
      | nil => rw [hp] at hmem; simp at hmem
      | cons a b => rfl
    have hkc := not_mem_keyPart r
    simp only [hne, substr, substrFrom, List.drop_zero, h1, h2, specSave, hmem, true_and]
    change ':' ∉ stripBlanks (List.takeWhile (fun x => decide (x ≠ ':')) (stripBlanks r)) at hkc
    simp only [keyPart, valuePart]
    revert hkc
    generalize stripBlanks (List.takeWhile (fun x => decide (x ≠ ':')) (stripBlanks r)) = k
    generalize stripBlanks (List.dropWhile (fun x => decide (x ≠ ':')) (stripBlanks r)).tail = v
    intro hkc
    by_cases hk : k = []
    · simp [hk]
    · by_cases hv : v = []
      · simp [hv]
      · by_cases hc : ':' ∈ v
        · have := (containsColonW_iff v).2 hc
          simp [hk, hv, hc, this]
        · have h1 : containsColonW v = false := by
            rw [← Bool.not_eq_true, containsColonW_iff]; exact hc
          have h2 : containsColonW k = false := by
            rw [← Bool.not_eq_true, containsColonW_iff]; exact hkc
          have h3 : containsColon v = false := (containsColon_eq_false_iff v).2 hc
          have h4 : containsColon k = false := (containsColon_eq_false_iff k).2 hkc
          simp [hk, hv, hc, h1, h2, h3, h4]

theorem specSave_some (r k v : Str) (h : specSave r = some (k, v)) :
    k = keyPart r ∧ v = valuePart r ∧ ':' ∈ stripBlanks r ∧
    k ≠ [] ∧ v ≠ [] ∧ ':' ∉ k ∧ ':' ∉ v ∧ (∀ c ∈ k, c ∈ r) ∧ (∀ c ∈ v, c ∈ r) := by
  unfold specSave at h
  split at h
  · rename_i hc
    simp only [Option.some.injEq, Prod.mk.injEq] at h
    obtain ⟨rfl, rfl⟩ := h
    refine ⟨rfl, rfl, hc.1, hc.2.1, hc.2.2.1, not_mem_keyPart r, hc.2.2.2, ?_, ?_⟩
    · intro c hcm
      exact mem_of_mem_stripBlanks _ _
        ((List.takeWhile_prefix _).subset (mem_of_mem_stripBlanks _ _ hcm))
    · intro c hcm
      exact mem_of_mem_stripBlanks _ _
        ((List.dropWhile_suffix _).subset
          (List.mem_of_mem_tail (mem_of_mem_stripBlanks _ _ hcm)))
  · simp at h

theorem specKey_some (r k : Str) (h : specKey r = some k) :
    k = stripBlanks r ∧ k ≠ [] ∧ ':' ∉ k ∧ (∀ c ∈ k, c ∈ r) := by
  simp only [specKey] at h
  split at h
  · rename_i hc
    simp only [Option.some.injEq] at h
    subst h
    exact ⟨rfl, hc.1, hc.2, fun c hcm => mem_of_mem_stripBlanks _ _ hcm⟩
  · simp at h

theorem savedata_ne_loaddata (r : Str) : startsWith (loaddataLit ++ r) savedataLit = false := by
  rw [← Bool.not_eq_true, startsWith_iff]
  rintro ⟨r', h⟩
  simp [loaddataLit, savedataLit] at h

theorem savedata_ne_deletedata (r : Str) : startsWith (deletedataLit ++ r) savedataLit = false := by
  rw [← Bool.not_eq_true, startsWith_iff]
  rintro ⟨r', h⟩
  simp [deletedataLit, savedataLit] at h

theorem loaddata_ne_deletedata (r : Str) : startsWith (deletedataLit ++ r) loaddataLit = false := by
  rw [← Bool.not_eq_true, startsWith_iff]
  rintro ⟨r', h⟩
  simp [deletedataLit, loaddataLit] at h

theorem handle_load (r : Str) (st : State) :
    HandleConsoleCommand (loaddataLit ++ r) st =
      match specKey r with
      | some k => { st with retrievedData := (find st.savedData k).getD [] }
      | none => st := by
  unfold HandleConsoleCommand
  simp only [savedata_ne_loaddata, startsWith_append, substrFrom_append, if_true,
    trimW_eq_stripBlanks, wstringToUtf8_eq, specKey]
  generalize stripBlanks r = k
  by_cases hk : k = []
  · simp [hk]
  · by_cases hc : ':' ∈ k
    · have := (containsColonW_iff k).2 hc
      simp [hk, hc, this]
    · have h1 : containsColonW k = false := by
        rw [← Bool.not_eq_true, containsColonW_iff]; exact hc
      have h2 : containsColon k = false := (containsColon_eq_false_iff k).2 hc
      cases hf : find st.savedData k <;> simp [hk, hc, h1, h2, hf]

theorem handle_delete (r : Str) (st : State) :
    HandleConsoleCommand (deletedataLit ++ r) st =
      match specKey r with
      | some k =>
        if (find st.savedData k).isSome then
          { st with savedData := (erase st.savedData k).1,
                    file := writeData st.file (erase st.savedData k).1 }
        else st
      | none => st := by
  unfold HandleConsoleCommand
  simp only [savedata_ne_deletedata, loaddata_ne_deletedata, startsWith_append,
    substrFrom_append, if_true, trimW_eq_stripBlanks, wstringToUtf8_eq, specKey]
  generalize stripBlanks r = k
  by_cases hk : k = []
  · simp [hk]
  · by_cases hc : ':' ∈ k
    · have := (containsColonW_iff k).2 hc
      simp [hk, hc, this]
    · have h1 : containsColonW k = false := by
        rw [← Bool.not_eq_true, containsColonW_iff]; exact hc
      have h2 : containsColon k = false := (containsColon_eq_false_iff k).2 hc
      cases hf : find st.savedData k with
      | none =>
        have h0 := (erase_count_eq_zero_iff st.savedData k).2 hf
        have h3 := erase_of_absent st.savedData k hf
        simp [hk, hc, h1, h2, h0, h3, hf]
      | some v =>
        have h0 : (erase st.savedData k).2 > 0 := by
          rcases Nat.eq_zero_or_pos (erase st.savedData k).2 with h | h
          · rw [erase_count_eq_zero_iff, hf] at h; simp at h
          · exact h
        simp [hk, hc, h1, h2, h0, hf]

theorem handle_other (cmd : Str) (st : State)
    (h1 : startsWith cmd savedataLit = false) (h2 : startsWith cmd loaddataLit = false)
    (h3 : startsWith cmd deletedataLit = false) : HandleConsoleCommand cmd st = st := by
  unfold HandleConsoleCommand
  simp [h1, h2, h3]

/-! ## Facts about the codec -/

theorem getLines_line (l t : Str) (h : '\n' ∉ l) :
    getLines (l ++ '\n' :: t) = l :: getLines t := by
  induction l with
  | nil => simp [getLines]
  | cons x rest ih =>
    have hx : ¬ x = '\n' := fun e => h (by simp [e])
    have hr : '\n' ∉ rest := fun m => h (List.mem_cons_of_mem _ m)
    simp [getLines, hx, ih hr]

theorem emit_cons_ok (e : Str × Str) (rest : Store) (h : EntryOk e) :
    writeData.emit (e :: rest) = (e.1 ++ ':' :: e.2) ++ '\n' :: writeData.emit rest := by
  obtain ⟨k, v⟩ := e
  obtain ⟨h1, h2, h3, _, _⟩ := h
  have hk : k.isEmpty = false := by cases k <;> simp_all
  have c1 := (containsColon_eq_false_iff k).2 h2
  have c2 := (containsColon_eq_false_iff v).2 h3
  simp [writeData.emit, hk, c1, c2]

theorem getLines_emit (es : Store) (h : ∀ e ∈ es, EntryOk e) :
    getLines (writeData.emit es) = es.map (fun e => e.1 ++ ':' :: e.2) := by
  induction es with
  | nil => simp [writeData.emit, getLines]
  | cons e rest ih =>
    have he : EntryOk e := h e (List.mem_cons_self _ _)
    have hr : ∀ x ∈ rest, EntryOk x := fun x hx => h x (List.mem_cons_of_mem _ hx)
    rw [emit_cons_ok e rest he, getLines_line _ _ ?_, ih hr]
    · simp
    · obtain ⟨_, _, _, h4, h5⟩ := he
      simp [h4, h5]

theorem step_line (d : Store) (e : Str × Str) (h : EntryOk e) :
    readData.step d (e.1 ++ ':' :: e.2) = assign d e.1 e.2 := by
  obtain ⟨k, v⟩ := e
  obtain ⟨h1, h2, h3, _, _⟩ := h
  have hf := strFind_append_cons k v ':' h2
  have hne : (k ++ ':' :: v).isEmpty = false := by cases k <;> simp
  have hk : k.isEmpty = false := by cases k <;> simp_all
  have c1 := (containsColon_eq_false_iff k).2 h2
  have c2 := (containsColon_eq_false_iff v).2 h3
  simp [readData.step, hne, hf, substr, substrFrom, hk, c1, c2]

theorem foldl_step_lines (es : Store) (h : ∀ e ∈ es, EntryOk e) : ∀ acc : Store,
    (es.map (fun e => e.1 ++ ':' :: e.2)).foldl readData.step acc
      = es.foldl (fun d e => assign d e.1 e.2) acc := by
  induction es with
  | nil => intro acc; rfl
  | cons e rest ih =>
    intro acc
    have he : EntryOk e := h e (List.mem_cons_self _ _)
    have hr : ∀ x ∈ rest, EntryOk x := fun x hx => h x (List.mem_cons_of_mem _ hx)
    simp only [List.map_cons, List.foldl_cons, step_line acc e he, ih hr]

theorem find_foldl_assign (es : Store) (hnd : (keys es).Nodup) (k : Str) : ∀ acc : Store,
    find (es.foldl (fun d e => assign d e.1 e.2) acc) k
      = match find es k with
        | some v => some v
        | none => find acc k := by
  induction es with
  | nil => intro acc; simp [find]
  | cons e rest ih =>
    intro acc
    obtain ⟨a, b⟩ := e
    have h' : a ∉ keys rest ∧ (keys rest).Nodup := by simpa [keys] using hnd
    rw [List.foldl_cons, ih h'.2]
    by_cases ha : a = k
    · subst ha
      have hn := (find_eq_none_iff rest a).2 h'.1
      simp [find, hn, find_assign]
    · have hk : ¬ k = a := fun e => ha e.symm
      simp [find, ha, hk, find_assign]

theorem nodup_keys_foldl_assign (es : Store) : ∀ acc : Store, (keys acc).Nodup →
    (keys (es.foldl (fun d e => assign d e.1 e.2) acc)).Nodup := by
  induction es with
  | nil => intro acc h; exact h
  | cons e rest ih =>
    intro acc h
    exact ih _ (nodup_keys_assign acc e.1 e.2 h)

theorem mem_of_find_eq_some (d : Store) (k v : Str) (h : find d k = some v) : (k, v) ∈ d := by
  induction d with
  | nil => simp [find] at h
  | cons e rest ih =>
    obtain ⟨a, b⟩ := e
    by_cases ha : a = k
    · simp only [find, ha, if_true, Option.some.injEq] at h
      simp [ha, h]
    · simp only [find, ha, if_false] at h
      exact List.mem_cons_of_mem _ (ih h)

theorem find_eq_some_of_mem (d : Store) (hnd : (keys d).Nodup) (k v : Str) (h : (k, v) ∈ d) :
    find d k = some v := by
  induction d with
  | nil => simp at h
  | cons e rest ih =>
    obtain ⟨a, b⟩ := e
    have h' : a ∉ keys rest ∧ (keys rest).Nodup := by simpa [keys] using hnd
    rcases List.mem_cons.1 h with h | h
    · simp only [Prod.mk.injEq] at h
      simp [find, h.1, h.2]
    · have ha : ¬ a = k := by
        intro e
        apply h'.1
        rw [e]
        exact List.mem_map_of_mem Prod.fst h
      simp [find, ha, ih h'.2 h]

theorem find_perm (es m : Store) (hp : es.Perm m) (hnd : (keys m).Nodup) (k : Str) :
    find es k = find m k := by
  have hnd' : (keys es).Nodup := (hp.map Prod.fst).nodup_iff.2 hnd
  cases h : find m k with
  | some v =>
    exact find_eq_some_of_mem es hnd' k v (hp.mem_iff.2 (mem_of_find_eq_some m k v h))
  | none =>
    cases h' : find es k with
    | none => rfl
    | some v =>
      have := find_eq_some_of_mem m hnd k v (hp.mem_iff.1 (mem_of_find_eq_some es k v h'))
      rw [h] at this
      exact absurd this (by simp)

theorem decode_emit (es : Store) (hnd : (keys es).Nodup) (hok : ∀ e ∈ es, EntryOk e) (k : Str) :
    find ((getLines (writeData.emit es)).foldl readData.step []) k = find es k := by
  rw [getLines_emit es hok, foldl_step_lines es hok, find_foldl_assign es hnd]
  cases find es k <;> simp [find]

theorem writeData_content (d : Disk) (data : Store) (h : d.writable = true) :
    (writeData d data).content = some (writeData.emit data) := by
  simp [writeData, h]

theorem writeData_writable (d : Disk) (data : Store) :
    (writeData d data).writable = d.writable := by
  unfold writeData
  split <;> rfl

theorem writeData_writeCalls (d : Disk) (data : Store) :
    (writeData d data).writeCalls = d.writeCalls + 1 := by
  unfold writeData
  split <;> rfl

theorem readData_of_content (d : Disk) (prior : Store) (text : Str) (h : d.content = some text) :
    readData d prior = (getLines text).foldl readData.step [] := by
  simp [readData, h]

/-! ## The four outcomes of one command line -/

theorem handle_cases (cmd : Str) (st : State) :
    HandleConsoleCommand cmd st = st ∨
    (∃ r k v, cmd = savedataLit ++ r ∧ specSave r = some (k, v) ∧
      HandleConsoleCommand cmd st =
        { st with savedData := assign st.savedData k v,
                  file := writeData st.file (assign st.savedData k v) }) ∨
    (∃ r k, cmd = loaddataLit ++ r ∧ specKey r = some k ∧
      HandleConsoleCommand cmd st =
        { st with retrievedData := (find st.savedData k).getD [] }) ∨
    (∃ r k, cmd = deletedataLit ++ r ∧ specKey r = some k ∧
      (find st.savedData k).isSome = true ∧
      HandleConsoleCommand cmd st =
        { st with savedData := (erase st.savedData k).1,
                  file := writeData st.file (erase st.savedData k).1 }) := by
  by_cases h1 : startsWith cmd savedataLit = true
  · obtain ⟨r, rfl⟩ := (startsWith_iff _ _).1 h1
    have h := handle_save r st
    cases hs : specSave r with
    | none => rw [hs] at h; exact Or.inl h
    | some kv =>
      obtain ⟨k, v⟩ := kv
      rw [hs] at h
      exact Or.inr (Or.inl ⟨r, k, v, rfl, hs, h⟩)
  · by_cases h2 : startsWith cmd loaddataLit = true
    · obtain ⟨r, rfl⟩ := (startsWith_iff _ _).1 h2
      have h := handle_load r st
      cases hs : specKey r with
      | none => rw [hs] at h; exact Or.inl h
      | some k =>
        rw [hs] at h
        exact Or.inr (Or.inr (Or.inl ⟨r, k, rfl, hs, h⟩))
    · by_cases h3 : startsWith cmd deletedataLit = true
      · obtain ⟨r, rfl⟩ := (startsWith_iff _ _).1 h3
        have h := handle_delete r st
        cases hs : specKey r with
        | none => rw [hs] at h; exact Or.inl h
        | some k =>
          rw [hs] at h
          by_cases hf : (find st.savedData k).isSome = true
          · simp only [hf, if_true] at h
            exact Or.inr (Or.inr (Or.inr ⟨r, k, rfl, hs, hf, h⟩))
          · simp only [hf] at h
            exact Or.inl h
      · exact Or.inl (handle_other cmd st (by simpa using h1) (by simpa using h2)
          (by simpa using h3))

theorem acceptedSave_iff (cmd : Str) :
    acceptedSave cmd = true ↔ ∃ r k v, cmd = savedataLit ++ r ∧ specSave r = some (k, v) := by
  unfold acceptedSave
  constructor
  · intro h
    simp only [Bool.and_eq_true, decide_eq_true_eq] at h
    obtain ⟨r, rfl⟩ := (startsWith_iff _ _).1 h.1
    have hw := h.2
    rw [handle_save] at hw
    cases hs : specSave r with
    | none => rw [hs] at hw; simp [freshState] at hw
    | some kv => exact ⟨r, kv.1, kv.2, rfl, hs⟩
  · rintro ⟨r, k, v, rfl, hs⟩
    simp [startsWith_append, handle_save, hs, freshState, writeData]

theorem erase_ne_of_present (d : Store) (k : Str) (h : (find d k).isSome = true) :
    (erase d k).1 ≠ d := by
  intro e
  have := find_erase d k k
  rw [e] at this
  rw [this] at h
  simp at h

/-- The entries a reachable store holds: distinct keys, each entry fit for the
line format. -/
theorem inv_step (cmd : Str) (st : State) (hn : acceptedSave cmd = true → '\n' ∉ cmd)
    (hnd : (keys st.savedData).Nodup) (hok : ∀ e ∈ st.savedData, EntryOk e) :
    (keys (HandleConsoleCommand cmd st).savedData).Nodup ∧
    ∀ e ∈ (HandleConsoleCommand cmd st).savedData, EntryOk e := by
  rcases handle_cases cmd st with h | ⟨r, k, v, rfl, hs, h⟩ | ⟨r, k, rfl, hs, h⟩ |
    ⟨r, k, rfl, hs, hf, h⟩
  · rw [h]; exact ⟨hnd, hok⟩
  · rw [h]
    refine ⟨nodup_keys_assign _ _ _ hnd, ?_⟩
    intro e he
    rcases mem_assign _ _ _ _ he with rfl | he
    · obtain ⟨_, _, _, h1, _, h3, h4, h5, h6⟩ := specSave_some r k v hs
      have hn' := hn ((acceptedSave_iff _).2 ⟨r, k, v, rfl, hs⟩)
      exact ⟨h1, h3, h4, fun m => hn' (List.mem_append_right _ (h5 _ m)),
        fun m => hn' (List.mem_append_right _ (h6 _ m))⟩
    · exact hok e he
  · rw [h]; exact ⟨hnd, hok⟩
  · rw [h]
    exact ⟨nodup_keys_erase _ _ hnd, fun e he => hok e (mem_erase _ _ _ he)⟩

theorem writable_step (cmd : Str) (st : State) :
    (HandleConsoleCommand cmd st).file.writable = st.file.writable := by
  rcases handle_cases cmd st with h | ⟨r, k, v, rfl, hs, h⟩ | ⟨r, k, rfl, hs, h⟩ |
    ⟨r, k, rfl, hs, hf, h⟩ <;> rw [h] <;> simp [writeData_writable]

theorem file_step (cmd : Str) (st : State) (hw : st.file.writable = true)
    (hfile : st.file.content = some (writeData.emit st.savedData)) :
    (HandleConsoleCommand cmd st).file.content
      = some (writeData.emit (HandleConsoleCommand cmd st).savedData) := by
  rcases handle_cases cmd st with h | ⟨r, k, v, rfl, hs, h⟩ | ⟨r, k, rfl, hs, h⟩ |
    ⟨r, k, rfl, hs, hf, h⟩
  · rw [h]; exact hfile
  · rw [h]; exact writeData_content _ _ hw
  · rw [h]; exact hfile
  · rw [h]; exact writeData_content _ _ hw

theorem empty_step (cmd : Str) (st : State) (he : st.savedData = [])
    (hna : acceptedSave cmd = false) : (HandleConsoleCommand cmd st).savedData = [] := by
  rcases handle_cases cmd st with h | ⟨r, k, v, rfl, hs, h⟩ | ⟨r, k, rfl, hs, h⟩ |
    ⟨r, k, rfl, hs, hf, h⟩
  · rw [h]; exact he
  · have := (acceptedSave_iff _).2 ⟨r, k, v, rfl, hs⟩
    rw [this] at hna; exact absurd hna (by simp)
  · rw [h]; exact he
  · rw [he] at hf; simp [find] at hf

theorem accepted_step (cmd : Str) (st : State) (hw : st.file.writable = true)
    (ha : acceptedSave cmd = true) :
    (HandleConsoleCommand cmd st).file.content
      = some (writeData.emit (HandleConsoleCommand cmd st).savedData) := by
  obtain ⟨r, k, v, rfl, hs⟩ := (acceptedSave_iff _).1 ha
  rw [handle_save, hs]
  exact writeData_content _ _ hw

theorem run_inv (cmds : List Str) : ∀ st : State,
    st.file.writable = true → (keys st.savedData).Nodup → (∀ e ∈ st.savedData, EntryOk e) →
    (∀ c ∈ cmds, acceptedSave c = true → '\n' ∉ c) →
    (st.file.content = some (writeData.emit st.savedData) ∨
      (st.savedData = [] ∧ ∃ c ∈ cmds, acceptedSave c = true)) →
    (keys (run cmds st).savedData).Nodup ∧ (∀ e ∈ (run cmds st).savedData, EntryOk e) ∧
    (run cmds st).file.content = some (writeData.emit (run cmds st).savedData) := by
  induction cmds with
  | nil =>
    intro st _ hnd hok _ hor
    rcases hor with h | ⟨_, c, hc, _⟩
    · exact ⟨hnd, hok, h⟩
    · simp at hc
  | cons c cs ih =>
    intro st hw hnd hok hn hor
    have hnc : acceptedSave c = true → '\n' ∉ c := hn c (List.mem_cons_self _ _)
    have hncs : ∀ x ∈ cs, acceptedSave x = true → '\n' ∉ x :=
      fun x hx => hn x (List.mem_cons_of_mem _ hx)
    obtain ⟨hnd', hok'⟩ := inv_step c st hnc hnd hok
    have hw' : (HandleConsoleCommand c st).file.writable = true := by
      rw [writable_step]; exact hw
    have hrun : run (c :: cs) st = run cs (HandleConsoleCommand c st) := rfl
    rw [hrun]
    apply ih _ hw' hnd' hok' hncs
    rcases hor with h | ⟨he, x, hx, hacc⟩
    · exact Or.inl (file_step c st hw h)
    · by_cases ha : acceptedSave c = true
      · exact Or.inl (accepted_step c st hw ha)
      · right
        refine ⟨empty_step c st he (by simpa using ha), x, ?_, hacc⟩
        rcases List.mem_cons.1 hx with rfl | hx
        · exact absurd hacc ha
        · exact hx

/-! ## Facts about the reference trim -/

theorem dropWhile_append_cons (p : Char → Bool) (a b : Str) (c : Char) (hc : p c = false) :
    (a ++ c :: b).dropWhile p = a.dropWhile p ++ c :: b := by
  induction a with
  | nil => simp [List.dropWhile_cons, hc]
  | cons x rest ih =>
    by_cases hx : p x = true
    · simp [List.dropWhile_cons, hx, ih]
    · simp [List.dropWhile_cons, hx]

theorem rdropWhile_append_cons (p : Char → Bool) (a b : Str) (c : Char) (hc : p c = false) :
    (a ++ c :: b).rdropWhile p = a ++ c :: b.rdropWhile p := by
  unfold List.rdropWhile
  have h : (a ++ c :: b).reverse = b.reverse ++ c :: a.reverse := by simp
  rw [h, dropWhile_append_cons p _ _ c hc]
  simp

theorem stripBlanks_append_cons (a b : Str) (c : Char) (hc : isBlank c = false) :
    stripBlanks (a ++ c :: b) = a.dropWhile isBlank ++ c :: b.rdropWhile isBlank := by
  unfold stripBlanks
  rw [dropWhile_append_cons isBlank a b c hc, rdropWhile_append_cons isBlank _ b c hc]

theorem dropWhile_rdropWhile_comm (p : Char → Bool) (l : Str) :
    (l.rdropWhile p).dropWhile p = (l.dropWhile p).rdropWhile p := by
  by_cases hall : ∀ x ∈ l, p x = true
  · rw [List.rdropWhile_eq_nil_iff.2 hall, List.dropWhile_eq_nil_iff.2 hall]
    simp
  · simp only [not_forall] at hall
    obtain ⟨x, hx, hpx⟩ := hall
    obtain ⟨a, b, rfl⟩ := List.append_of_mem hx
    have hpx' : p x = false := by simpa using hpx
    rw [rdropWhile_append_cons p a b x hpx', dropWhile_append_cons p a b x hpx',
      dropWhile_append_cons p a _ x hpx', rdropWhile_append_cons p _ b x hpx']

theorem stripBlanks_dropWhile (s : Str) : stripBlanks (s.dropWhile isBlank) = stripBlanks s := by
  unfold stripBlanks
  rw [List.dropWhile_idempotent]

theorem stripBlanks_rdropWhile (s : Str) : stripBlanks (s.rdropWhile isBlank) = stripBlanks s := by
  unfold stripBlanks
  rw [dropWhile_rdropWhile_comm, List.rdropWhile_idempotent]

theorem stripBlanks_idem (s : Str) : stripBlanks (stripBlanks s) = stripBlanks s := by
  have h : stripBlanks (stripBlanks s) = stripBlanks ((s.dropWhile isBlank).rdropWhile isBlank) := rfl
  rw [h, stripBlanks_rdropWhile, stripBlanks_dropWhile]

theorem mem_stripBlanks_iff (s : Str) (c : Char) (hc : isBlank c = false) :
    c ∈ stripBlanks s ↔ c ∈ s := by
  constructor
  · exact mem_of_mem_stripBlanks s c
  · intro h
    obtain ⟨a, b, rfl⟩ := List.append_of_mem h
    rw [stripBlanks_append_cons a b c hc]
    simp

theorem colon_not_blank : isBlank ':' = false := by decide

theorem takeWhile_ne_append_cons (a b : Str) (c : Char) (h : c ∉ a) :
    (a ++ c :: b).takeWhile (fun x => decide (x ≠ c)) = a ∧
    ((a ++ c :: b).dropWhile (fun x => decide (x ≠ c))).tail = b := by
  induction a with
  | nil => simp [List.takeWhile_cons, List.dropWhile_cons]
  | cons x rest ih =>
    have hx : ¬ x = c := fun e => h (by simp [e])
    have hr : c ∉ rest := fun m => h (List.mem_cons_of_mem _ m)
    obtain ⟨h1, h2⟩ := ih hr
    have hd : decide (x ≠ c) = true := by simpa using hx
    rw [List.cons_append, List.takeWhile_cons, List.dropWhile_cons, hd]
    simp only [if_true]
    exact ⟨by rw [h1], h2⟩

/-- Key and value side of a remainder `a ++ ":" ++ b` whose `a` has no `':'`. -/
theorem parts_of_append (a b : Str) (h : ':' ∉ a) :
    ':' ∈ stripBlanks (a ++ ':' :: b) ∧
    keyPart (a ++ ':' :: b) = stripBlanks a ∧ valuePart (a ++ ':' :: b) = stripBlanks b := by
  have hs := stripBlanks_append_cons a b ':' colon_not_blank
  have h' : ':' ∉ a.dropWhile isBlank := fun m => h ((List.dropWhile_suffix _).subset m)
  obtain ⟨h1, h2⟩ := takeWhile_ne_append_cons (a.dropWhile isBlank) (b.rdropWhile isBlank) ':' h'
  refine ⟨by rw [hs]; simp, ?_, ?_⟩
  · unfold keyPart
    rw [hs, h1, stripBlanks_dropWhile]
  · unfold valuePart
    rw [hs, h2, stripBlanks_rdropWhile]

/-- A remainder whose first `':'` is followed by another one is rejected. -/
theorem colon_mem_valuePart (a b c : Str) (h : ':' ∉ a) :
    ':' ∈ valuePart (a ++ ':' :: (b ++ ':' :: c)) := by
  rw [(parts_of_append a (b ++ ':' :: c) h).2.2, mem_stripBlanks_iff _ _ colon_not_blank]
  simp

/-- When `savedata k:v` is accepted, `k` has no `':'` and the entry stored is
the trimmed `k` with the trimmed `v`. -/
theorem specSave_append (k v : Str) (kv : Str × Str)
    (h : specSave (k ++ ':' :: v) = some kv) :
    kv = (stripBlanks k, stripBlanks v) := by
  have hk : ':' ∉ k := by
    intro hm
    obtain ⟨a, b, rfl⟩ := List.append_of_mem hm
    -- cut `k` at its first colon
    have hfirst : ∃ a' b', a ++ ':' :: b = a' ++ ':' :: b' ∧ ':' ∉ a' := by
      refine ⟨(a ++ ':' :: b).takeWhile (fun x => decide (x ≠ ':')),
        ((a ++ ':' :: b).dropWhile (fun x => decide (x ≠ ':'))).tail, ?_,
        not_mem_takeWhile_ne _ _⟩
      have hd : (a ++ ':' :: b).dropWhile (fun x => decide (x ≠ ':')) ≠ [] := by
        intro e
        have := List.dropWhile_eq_nil_iff.1 e ':' hm
        simp at this
      have hhead := List.head_dropWhile_not (fun x => decide (x ≠ ':')) (a ++ ':' :: b) hd
      have hcons := List.head_cons_tail _ hd
      have hh : ((a ++ ':' :: b).dropWhile (fun x => decide (x ≠ ':'))).head hd = ':' := by
        simpa using hhead
      rw [hh] at hcons
      rw [hcons]
      exact (List.takeWhile_append_dropWhile _ _).symm
    obtain ⟨a', b', he, hna⟩ := hfirst
    have hval := colon_mem_valuePart a' b' v hna
    have hr : (a ++ ':' :: b) ++ ':' :: v = a' ++ ':' :: (b' ++ ':' :: v) := by
      rw [he]; simp
    rw [hr] at h
    obtain ⟨_, hv, _, _, _, _, hnv, _, _⟩ := specSave_some _ kv.1 kv.2 h
    rw [hv] at hnv
    exact hnv hval
  obtain ⟨h1, h2, _⟩ := specSave_some _ kv.1 kv.2 h
  obtain ⟨_, p1, p2⟩ := parts_of_append k v hk
  rw [p1] at h1
  rw [p2] at h2
  exact Prod.ext h1 h2

theorem savedata_line_eq (l r : Str) (h : savedataLit ++ l = savedataLit ++ r) : l = r :=
  List.append_cancel_left h

theorem specSave_isSome_iff (r : Str) :
    (∃ k v, specSave r = some (k, v)) ↔
      (':' ∈ stripBlanks r ∧ keyPart r ≠ [] ∧ valuePart r ≠ [] ∧ ':' ∉ valuePart r) := by
  unfold specSave
  constructor
  · rintro ⟨k, v, h⟩
    split at h
    · assumption
    · simp at h
  · intro h
    exact ⟨keyPart r, valuePart r, by rw [if_pos h]⟩

theorem accepted_line_iff (r : Str) :
    acceptedSave (savedataLit ++ r) = true ↔
      (':' ∈ stripBlanks r ∧ keyPart r ≠ [] ∧ valuePart r ≠ [] ∧ ':' ∉ valuePart r) := by
  rw [acceptedSave_iff, ← specSave_isSome_iff]
  constructor
  · rintro ⟨r', k, v, he, hs⟩
    rw [← savedata_line_eq _ _ he] at hs
    exact ⟨k, v, hs⟩
  · rintro ⟨k, v, hs⟩
    exact ⟨r, k, v, rfl, hs⟩

theorem split_first_colon (p : Str) (h : ':' ∈ p) :
    p = p.takeWhile (fun c => decide (c ≠ ':')) ++
          ':' :: (p.dropWhile (fun c => decide (c ≠ ':'))).tail ∧
    ':' ∉ p.takeWhile (fun c => decide (c ≠ ':')) := by
  refine ⟨?_, not_mem_takeWhile_ne _ _⟩
  have hd : p.dropWhile (fun x => decide (x ≠ ':')) ≠ [] := by
    intro e
    have := List.dropWhile_eq_nil_iff.1 e ':' h
    simp at this
  have hhead := List.head_dropWhile_not (fun x => decide (x ≠ ':')) p hd
  have hcons := List.head_cons_tail _ hd
  have hh : (p.dropWhile (fun x => decide (x ≠ ':'))).head hd = ':' := by
    simpa using hhead
  rw [hh] at hcons
  rw [hcons]
  exact (List.takeWhile_append_dropWhile _ _).symm

theorem specKey_of_valid (key : Str) (h1 : stripBlanks key ≠ []) (h2 : ':' ∉ key) :
    specKey key = some (stripBlanks key) := by
  have h3 : ':' ∉ stripBlanks key := fun m => h2 (mem_of_mem_stripBlanks _ _ m)
  simp [specKey, h1, h3]

theorem delete_absent (key : Str) (s : State)
    (h : find s.savedData (stripBlanks key) = none) :
    HandleConsoleCommand (deletedataLit ++ key) s = s := by
  rw [handle_delete]
  cases hs : specKey key with
  | none => rfl
  | some k =>
    obtain ⟨rfl, _⟩ := specKey_some key k hs
    simp [h]

theorem delete_twice (key : Str) (st : State) :
    HandleConsoleCommand (deletedataLit ++ key) (HandleConsoleCommand (deletedataLit ++ key) st)
      = HandleConsoleCommand (deletedataLit ++ key) st := by
  rcases handle_cases (deletedataLit ++ key) st with h | ⟨r, k, v, he, hs, h⟩ |
    ⟨r, k, he, hs, h⟩ | ⟨r, k, he, hs, hf, h⟩
  · rw [h, h]
  · exfalso
    have := savedata_ne_deletedata key
    rw [he, startsWith_append] at this
    exact absurd this (by simp)
  · exfalso
    have := loaddata_ne_deletedata key
    rw [he, startsWith_append] at this
    exact absurd this (by simp)
  · have hr : key = r := List.append_cancel_left he
    subst hr
    obtain ⟨rfl, _⟩ := specKey_some key k hs
    apply delete_absent
    rw [h]
    show find (erase st.savedData (stripBlanks key)).1 (stripBlanks key) = none
    rw [find_erase]
    simp

theorem writeData_twice_content (f : Disk) (x : Store) :
    (writeData (writeData f x) x).content = (writeData f x).content := by
  cases hw : f.writable <;> simp [writeData, hw]

theorem startsWith_eq_false_of_not_isPrefix (s p : Str) (h : ¬ p <+: s) :
    startsWith s p = false := by
  rw [← Bool.not_eq_true, startsWith_iff]
  rintro ⟨r, rfl⟩
  exact h ⟨r, rfl⟩

/-! ## Facts for the key commands -/

theorem specKey_eq_none (r : Str) (h : stripBlanks r = [] ∨ ':' ∈ stripBlanks r) :
    specKey r = none := by
  simp only [specKey]
  rcases h with h | h
  · simp [h]
  · simp [h]

theorem specKey_eq_some (r : Str) (h1 : stripBlanks r ≠ []) (h2 : ':' ∉ stripBlanks r) :
    specKey r = some (stripBlanks r) := by
  simp [specKey, h1, h2]

theorem load_frame (r : Str) (st : State) :
    (HandleConsoleCommand (loaddataLit ++ r) st).savedData = st.savedData ∧
    (HandleConsoleCommand (loaddataLit ++ r) st).file = st.file := by
  rw [handle_load]
  cases specKey r <;> exact ⟨rfl, rfl⟩

/-! ## Facts about decoding line by line -/

theorem step_malformed (d : Store) (b : Str) (hb : Malformed b) : readData.step d b = d := by
  rcases hb with h | h
  · have hf := (strFind_eq_none_iff b ':').2 h
    unfold readData.step
    rw [hf]
    split <;> rfl
  · cases b with
    | nil => simp at h
    | cons c rest =>
      simp only [List.head?_cons, Option.some.injEq] at h
      subst h
      simp [readData.step, strFind, substr]

theorem step_valid_line (d : Store) (k v : Str) (h1 : k ≠ []) (h2 : ':' ∉ k) (h3 : ':' ∉ v) :
    readData.step d (k ++ ':' :: v) = assign d k v := by
  have hf := strFind_append_cons k v ':' h2
  have hne : (k ++ ':' :: v).isEmpty = false := by cases k <;> simp
  have hk : k.isEmpty = false := by cases k <;> simp_all
  have c1 := (containsColon_eq_false_iff k).2 h2
  have c2 := (containsColon_eq_false_iff v).2 h3
  simp [readData.step, hne, hf, substr, substrFrom, hk, c1, c2]

/-- One round of the loop of `readData` either skips the line or assigns the
entry of a well-formed line `k:v`. -/
theorem step_cases (d : Store) (l : Str) :
    readData.step d l = d ∨
    ∃ k v, l = k ++ ':' :: v ∧ k ≠ [] ∧ ':' ∉ k ∧ ':' ∉ v ∧
      readData.step d l = assign d k v := by
  by_cases hm : ':' ∈ l
  · obtain ⟨hsplit, hnk⟩ := split_first_colon l hm
    generalize l.takeWhile (fun c => decide (c ≠ ':')) = k at hsplit hnk
    generalize (l.dropWhile (fun c => decide (c ≠ ':'))).tail = v at hsplit
    by_cases hk : k = []
    · left
      apply step_malformed
      right
      rw [hsplit, hk]
      rfl
    · by_cases hv : ':' ∈ v
      · left
        have hf := strFind_append_cons k v ':' hnk
        have hne : (k ++ ':' :: v).isEmpty = false := by cases k <;> simp
        have hke : k.isEmpty = false := by cases k <;> simp_all
        have c2 := (containsColon_iff v).2 hv
        rw [hsplit]
        simp [readData.step, hne, hf, substr, substrFrom, hke, c2]
      · right
        refine ⟨k, v, hsplit, hk, hnk, hv, ?_⟩
        rw [hsplit]
        exact step_valid_line d k v hk hnk hv
  · left
    exact step_malformed d l (Or.inl hm)

theorem foldl_step_skip (L1 L2 : List Str) (b : Str) (hb : Malformed b) (d : Store) :
    (L1 ++ [b] ++ L2).foldl readData.step d = (L1 ++ L2).foldl readData.step d := by
  simp only [List.foldl_append, List.foldl_cons, List.foldl_nil, step_malformed _ b hb]

theorem find_foldl_step_other (L : List Str) (k : Str)
    (h : ∀ l ∈ L, ∀ v, ':' ∉ v → l ≠ k ++ ':' :: v) : ∀ d : Store,
    find (L.foldl readData.step d) k = find d k := by
  induction L with
  | nil => intro d; rfl
  | cons l rest ih =>
    intro d
    have hr : ∀ x ∈ rest, ∀ v, ':' ∉ v → x ≠ k ++ ':' :: v :=
      fun x hx => h x (List.mem_cons_of_mem _ hx)
    rw [List.foldl_cons, ih hr]
    rcases step_cases d l with hs | ⟨k', v', hl, _, _, hv, hs⟩
    · rw [hs]
    · rw [hs, find_assign]
      by_cases hk : k = k'
      · subst hk
        exact absurd hl (h l (List.mem_cons_self _ _) v' hv)
      · rw [if_neg hk]

theorem find_foldl_step_last (L1 L2 : List Str) (k v : Str)
    (hk : k ≠ []) (hkc : ':' ∉ k) (hvc : ':' ∉ v)
    (hlast : ∀ l ∈ L2, ∀ v', ':' ∉ v' → l ≠ k ++ ':' :: v') (d : Store) :
    find ((L1 ++ [k ++ ':' :: v] ++ L2).foldl readData.step d) k = some v := by
  simp only [List.foldl_append, List.foldl_cons, List.foldl_nil]
  rw [find_foldl_step_other L2 k hlast, step_valid_line _ k v hk hkc hvc, find_assign]
  simp

theorem not_mem_getLines (t : Str) : ∀ l ∈ getLines t, '\n' ∉ l := by
  induction t with
  | nil => intro l hl; simp [getLines] at hl
  | cons c rest ih =>
    intro l hl
    by_cases hc : c = '\n'
    · simp only [getLines, hc, if_true, List.mem_cons] at hl
      rcases hl with rfl | hl
      · simp
      · exact ih l hl
    · simp only [getLines, hc, if_false] at hl
      cases hg : getLines rest with
      | nil =>
        rw [hg] at hl
        simp only [List.mem_singleton] at hl
        subst hl
        intro hm
        simp only [List.mem_singleton] at hm
        exact hc hm.symm
      | cons line more =>
        rw [hg] at hl ih
        simp only [List.mem_cons] at hl
        rcases hl with rfl | hl
        · intro hm
          rcases List.mem_cons.1 hm with e | hm
          · exact hc e.symm
          · exact ih line (List.mem_cons_self _ _) hm
        · exact ih l (List.mem_cons_of_mem _ hl)

theorem getLines_fileOfLines (ls : List Str) (h : ∀ l ∈ ls, '\n' ∉ l) :
    getLines (fileOfLines ls) = ls := by
  induction ls with
  | nil => rfl
  | cons l rest ih =>
    have hr : ∀ x ∈ rest, '\n' ∉ x := fun x hx => h x (List.mem_cons_of_mem _ hx)
    rw [fileOfLines, getLines_line l _ (h l (List.mem_cons_self _ _)), ih hr]

theorem readData_diskOf (text : Str) (prior : Store) :
    readData (diskOf text) prior = (getLines text).foldl readData.step [] := rfl

theorem emit_cons (e : Str × Str) (rest : Store) :
    writeData.emit (e :: rest)
      = if emittable e = true then entryLine e ++ writeData.emit rest
        else writeData.emit rest := by
  obtain ⟨k, v⟩ := e
  by_cases hk : k = []
  · subst hk
    simp [writeData.emit, emittable]
  · have hke : k.isEmpty = false := by cases k <;> simp_all
    by_cases h2 : ':' ∈ k
    · have c1 := (containsColon_iff k).2 h2
      simp [writeData.emit, emittable, hke, c1, h2]
    · have c1 := (containsColon_eq_false_iff k).2 h2
      by_cases h3 : ':' ∈ v
      · have c2 := (containsColon_iff v).2 h3
        simp [writeData.emit, emittable, hke, c1, c2, h3]
      · have c2 := (containsColon_eq_false_iff v).2 h3
        simp [writeData.emit, emittable, entryLine, hke, hk, c1, c2, h2, h3]

theorem emit_eq_flatten (m : Store) :
    writeData.emit m = ((m.filter emittable).map entryLine).flatten := by
  induction m with
  | nil => rfl
  | cons e rest ih =>
    rw [emit_cons, List.filter_cons]
    by_cases h : emittable e = true
    · simp [h, ih]
    · simp [h, ih]

theorem strFind_some_decompose (line : Str) (pos : Nat) (h : strFind line ':' = some pos) :
    line = substr line 0 pos ++ ':' :: substrFrom line (pos + 1) ∧
    ':' ∉ substr line 0 pos := by
  have hm : ':' ∈ line := by rw [← strFind_isSome_iff, h]; rfl
  obtain ⟨h1, h2⟩ := strFind_some_split line ':' pos h
  obtain ⟨hs, hn⟩ := split_first_colon line hm
  simp only [substr, substrFrom, List.drop_zero]
  rw [h1, h2]
  exact ⟨hs, hn⟩

theorem count_colon_split (k v : Str) (hk : ':' ∉ k) :
    (k ++ ':' :: v).count ':' = v.count ':' + 1 := by
  rw [List.count_append, List.count_cons_self, List.count_eq_zero.2 hk]
  omega

/-- What the loop of `readData` keeps: distinct keys and entries fit for the
line format. -/
theorem step_inv (d : Store) (l : Str) (hn : '\n' ∉ l)
    (hnd : (keys d).Nodup) (hok : ∀ e ∈ d, EntryOk e) :
    (keys (readData.step d l)).Nodup ∧ ∀ e ∈ readData.step d l, EntryOk e := by
  rcases step_cases d l with hs | ⟨k, v, hl, hk, hkc, hvc, hs⟩
  · rw [hs]; exact ⟨hnd, hok⟩
  · rw [hs]
    refine ⟨nodup_keys_assign d k v hnd, ?_⟩
    intro e he
    rcases mem_assign d k v e he with rfl | he
    · refine ⟨hk, hkc, hvc, ?_, ?_⟩
      · intro m; apply hn; rw [hl]; exact List.mem_append_left _ m
      · intro m; apply hn; rw [hl]
        exact List.mem_append_right _ (List.mem_cons_of_mem _ m)
    · exact hok e he

theorem foldl_step_inv (L : List Str) (hn : ∀ l ∈ L, '\n' ∉ l) : ∀ d : Store,
    (keys d).Nodup → (∀ e ∈ d, EntryOk e) →
    (keys (L.foldl readData.step d)).Nodup ∧ ∀ e ∈ L.foldl readData.step d, EntryOk e := by
  induction L with
  | nil => intro d h1 h2; exact ⟨h1, h2⟩
  | cons l rest ih =>
    intro d h1 h2
    obtain ⟨h3, h4⟩ := step_inv d l (hn l (List.mem_cons_self _ _)) h1 h2
    exact ih (fun x hx => hn x (List.mem_cons_of_mem _ hx)) _ h3 h4

theorem decoded_inv (f : Disk) (b : Str) (prior : Store) (hf : f.content = some b) :
    (keys (readData f prior)).Nodup ∧ ∀ e ∈ readData f prior, EntryOk e := by
  rw [readData_of_content f prior b hf]
  exact foldl_step_inv (getLines b) (not_mem_getLines b) [] (by simp [keys]) (by simp)

/-! ## Facts about the ends of a trimmed text -/

theorem noBlankEnds_stripBlanks (s : Str) : NoBlankEnds (stripBlanks s) := by
  constructor
  · intro c hc
    have hcomm : stripBlanks s = (s.rdropWhile isBlank).dropWhile isBlank := by
      unfold stripBlanks
      rw [dropWhile_rdropWhile_comm]
    rw [hcomm] at hc
    have := List.head?_dropWhile_not isBlank (s.rdropWhile isBlank)
    rw [hc] at this
    exact this
  · intro c hc
    unfold stripBlanks at hc
    have hne : (s.dropWhile isBlank).rdropWhile isBlank ≠ [] := by
      intro e; rw [e] at hc; simp at hc
    have h1 := List.rdropWhile_last_not isBlank (s.dropWhile isBlank) hne
    rw [List.getLast?_eq_getLast _ hne] at hc
    simp only [Option.some.injEq] at hc
    rw [hc] at h1
    simpa using h1

theorem stripBlanks_eq_nil_of_blank (s : Str) (h : ∀ c ∈ s, isBlank c = true) :
    stripBlanks s = [] := by
  unfold stripBlanks
  rw [List.dropWhile_eq_nil_iff.2 h]
  rfl

/-- The entries the handler stores: both texts non-empty, free of `':'`, and
trimmed. -/
theorem stored_step (cmd : Str) (st : State)
    (h : ∀ e ∈ st.savedData,
      e.1 ≠ [] ∧ e.2 ≠ [] ∧ ':' ∉ e.1 ∧ ':' ∉ e.2 ∧ NoBlankEnds e.1 ∧ NoBlankEnds e.2) :
    ∀ e ∈ (HandleConsoleCommand cmd st).savedData,
      e.1 ≠ [] ∧ e.2 ≠ [] ∧ ':' ∉ e.1 ∧ ':' ∉ e.2 ∧ NoBlankEnds e.1 ∧ NoBlankEnds e.2 := by
  rcases handle_cases cmd st with hc | ⟨r, k, v, rfl, hs, hc⟩ | ⟨r, k, rfl, hs, hc⟩ |
    ⟨r, k, rfl, hs, hf, hc⟩
  · rw [hc]; exact h
  · rw [hc]
    intro e he
    rcases mem_assign _ _ _ _ he with rfl | he
    · obtain ⟨h1, h2, _, h4, h5, h6, h7, _⟩ := specSave_some r k v hs
      refine ⟨h4, h5, h6, h7, ?_, ?_⟩
      · rw [h1]; exact noBlankEnds_stripBlanks _
      · rw [h2]; exact noBlankEnds_stripBlanks _
    · exact h e he
  · rw [hc]; exact h
  · rw [hc]
    exact fun e he => h e (mem_erase _ _ _ he)

theorem stored_run (cmds : List Str) : ∀ st : State,
    (∀ e ∈ st.savedData,
      e.1 ≠ [] ∧ e.2 ≠ [] ∧ ':' ∉ e.1 ∧ ':' ∉ e.2 ∧ NoBlankEnds e.1 ∧ NoBlankEnds e.2) →
    ∀ e ∈ (run cmds st).savedData,
      e.1 ≠ [] ∧ e.2 ≠ [] ∧ ':' ∉ e.1 ∧ ':' ∉ e.2 ∧ NoBlankEnds e.1 ∧ NoBlankEnds e.2 := by
  induction cmds with
  | nil => intro st h; exact h
  | cons c cs ih =>
    intro st h
    exact ih _ (stored_step c st h)

theorem save_frame (r : Str) (st : State) :
    (HandleConsoleCommand (savedataLit ++ r) st).retrievedData = st.retrievedData := by
  rw [handle_save]
  cases specSave r <;> rfl

theorem delete_frame (r : Str) (st : State) :
    (HandleConsoleCommand (deletedataLit ++ r) st).retrievedData = st.retrievedData := by
  rw [handle_delete]
  cases specKey r with
  | none => rfl
  | some k =>
    show (if (find st.savedData k).isSome = true then _ else st).retrievedData = _
    split <;> rfl

/-! ## Facts about the checked `trimW` -/

theorem readAt_of_lt (s : Str) (i : Nat) (h : i < s.length) :
    readAt s i = some (charAt s i) := by
  simp [readAt, h]

theorem skipLeadingChecked_eq (s : Str) : ∀ fuel start,
    trimW.skipLeadingChecked s fuel start = some (trimW.skipLeading s fuel start) := by
  intro fuel
  induction fuel with
  | zero => intro start; rfl
  | succ n ih =>
    intro start
    rw [trimW.skipLeadingChecked, trimW.skipLeading]
    by_cases hi : start < s.length
    · rw [if_pos hi, readAt_of_lt s start hi]
      cases hb : isBlank (charAt s start)
      · simp [hi, hb]
      · simp [hi, hb, ih]
    · simp [hi]

theorem skipTrailingChecked_eq (s : Str) (start : Nat) : ∀ e, e < s.length →
    trimW.skipTrailingChecked s start e = some (trimW.skipTrailing s start e) := by
  intro e
  induction e with
  | zero => intro _; rfl
  | succ n ih =>
    intro he
    rw [trimW.skipTrailingChecked, trimW.skipTrailing]
    by_cases hi : n + 1 > start
    · rw [if_pos hi, readAt_of_lt s (n + 1) he]
      cases hb : isBlank (charAt s (n + 1))
      · simp [hi, hb]
      · simp [hi, hb, ih (by omega)]
    · simp [hi]

theorem skipTrailing_ge (s : Str) (start : Nat) : ∀ e, start ≤ e →
    start ≤ trimW.skipTrailing s start e := by
  intro e
  induction e with
  | zero => intro h; simpa [trimW.skipTrailing] using h
  | succ n ih =>
    intro h
    rw [trimW.skipTrailing]
    by_cases hi : n + 1 > start
    · cases hb : isBlank (charAt s (n + 1))
      · simp [hi, hb]; omega
      · simp only [hi, hb, decide_True, Bool.and_self, if_true]
        exact ih (by omega)
    · simp [hi]; omega

theorem skipTrailing_le (s : Str) (start : Nat) : ∀ e, trimW.skipTrailing s start e ≤ e := by
  intro e
  induction e with
  | zero => simp [trimW.skipTrailing]
  | succ n ih =>
    rw [trimW.skipTrailing]
    split
    · omega
    · omega

theorem trimWChecked_eq (s : Str) : trimWChecked s = some (trimW s) := by
  unfold trimWChecked trimW
  rw [skipLeadingChecked_eq]
  simp only []
  by_cases hge : trimW.skipLeading s s.length 0 ≥ s.length
  · simp [hge]
  · have hlt : trimW.skipLeading s s.length 0 < s.length := by omega
    have h1 : ¬ s.length < 1 := by omega
    have h2 := skipTrailing_ge s (trimW.skipLeading s s.length 0) (s.length - 1) (by omega)
    rw [if_neg hge, if_neg h1, skipTrailingChecked_eq s _ (s.length - 1) (by omega)]
    simp only []
    rw [if_neg (by omega), if_neg hge]
    simp [substrChecked]
    omega

/-! ## The claims -/

/-- C1, as stated, fails: the mapping `a ↦ "b\nc"` has a non-empty key and no
`':'` anywhere, yet the text `writeData` emits for it decodes to `a ↦ "b"`. -/
theorem C1_line_break_counterexample :
    (keys mapBreak).Nodup ∧
    (∀ e ∈ mapBreak, e.1 ≠ [] ∧ ':' ∉ e.1 ∧ ':' ∉ e.2) ∧
    find mapBreak "a".toList = some "b\nc".toList ∧
    find (readData (writeData disk0 mapBreak) []) "a".toList = some "b".toList ∧
    find (readData (writeData disk0 mapBreak) []) "a".toList ≠ find mapBreak "a".toList := by
  decide

/-- C1 (amended): for every mapping `m` (distinct keys) in which every key is
non-empty and no key or value contains `':'` or a line break, and for every
order `es` in which its entries are emitted, decoding the text that
`writeData` emits (into any prior mapping) yields exactly `m`: the same value
under every key, and again distinct keys. -/
theorem C1_round_trip (d : Disk) (m es prior : Store)
    (hw : d.writable = true) (hnd : (keys m).Nodup) (hok : ∀ e ∈ m, EntryOk e)
    (hp : es.Perm m) :
    (∀ k, find (readData (writeData d es) prior) k = find m k) ∧
    (keys (readData (writeData d es) prior)).Nodup := by
  have hnd' : (keys es).Nodup := (hp.map Prod.fst).nodup_iff.2 hnd
  have hok' : ∀ e ∈ es, EntryOk e := fun e he => hok e (hp.mem_iff.1 he)
  rw [readData_of_content _ prior _ (writeData_content d es hw)]
  constructor
  · intro k
    rw [decode_emit es hnd' hok', find_perm es m hp hnd]
  · rw [getLines_emit es hok', foldl_step_lines es hok']
    exact nodup_keys_foldl_assign es [] (by simp [keys])

/-- C1 at a sample: `mapAB` emitted in the order of `mapBA` and decoded over
`mapZ`. -/
theorem C1_round_trip_witness :
    (∀ k, find (readData (writeData disk0 mapBA) mapZ) k = find mapAB k) ∧
    (keys (readData (writeData disk0 mapBA) mapZ)).Nodup :=
  C1_round_trip disk0 mapAB mapBA mapZ rfl (by decide) (by decide)
    (List.Perm.swap _ _ _)

/-- C2, as stated, fails: from the empty store the single accepted line
`savedata a:b\nc` leaves `a ↦ "b\nc"` in memory, while the file it wrote
reloads as `a ↦ "b"`. -/
theorem C2_line_break_counterexample :
    acceptedSave cmdBreak = true ∧
    find (run [cmdBreak] (freshState disk0)).savedData "a".toList = some "b\nc".toList ∧
    find (readData (run [cmdBreak] (freshState disk0)).file []) "a".toList
      = some "b".toList ∧
    find (readData (run [cmdBreak] (freshState disk0)).file []) "a".toList
      ≠ find (run [cmdBreak] (freshState disk0)).savedData "a".toList := by
  decide

/-- C2 (amended): starting from the empty store, for every sequence of command
lines in which no accepted savedata line holds a line break and which contains
at least one accepted savedata, with the file writable, reloading from the
written file (by `readData` into any prior mapping, or by `onAttach` in a
fresh process) yields a mapping identical to the one in memory. -/
theorem C2_restart (d : Disk) (cmds : List Str) (prior : Store)
    (hw : d.writable = true) (hn : ∀ c ∈ cmds, acceptedSave c = true → '\n' ∉ c)
    (hacc : ∃ c ∈ cmds, acceptedSave c = true) :
    (∀ k, find (readData (run cmds (freshState d)).file prior) k
        = find (run cmds (freshState d)).savedData k) ∧
    (∀ k, find (onAttach (freshState (run cmds (freshState d)).file)).savedData k
        = find (run cmds (freshState d)).savedData k) := by
  obtain ⟨hnd, hok, hfile⟩ := run_inv cmds (freshState d) hw (by simp [freshState, keys])
    (by simp [freshState]) hn (Or.inr ⟨rfl, hacc⟩)
  constructor
  · intro k
    rw [readData_of_content _ prior _ hfile]
    exact decode_emit _ hnd hok k
  · intro k
    have : (onAttach (freshState (run cmds (freshState d)).file)).savedData
        = readData (run cmds (freshState d)).file [] := by
      have hs : (freshState (run cmds (freshState d)).file).file.content.isSome = true := by
        show (run cmds (freshState d)).file.content.isSome = true
        rw [hfile]; rfl
      unfold onAttach
      rw [if_pos hs]
      rfl
    rw [this, readData_of_content _ [] _ hfile]
    exact decode_emit _ hnd hok k

/-- C2 at a sample session of two saves, a delete and a load. -/
theorem C2_restart_witness :
    (∀ k, find (readData (run session (freshState disk0)).file mapZ) k
        = find (run session (freshState disk0)).savedData k) ∧
    (∀ k, find (onAttach (freshState (run session (freshState disk0)).file)).savedData k
        = find (run session (freshState disk0)).savedData k) :=
  C2_restart disk0 session mapZ rfl (by decide)
    ⟨"savedata a:1".toList, by decide, by decide⟩

/-- C3: with the file writable, (1) after an accepted savedata line and (2)
after a deletedata line that removes an entry, the file content is the encoding
of the new mapping; (3) every other line leaves the file as it was, with no
call of `writeData`, and the mapping too; (4) hence once the file content is
the encoding of the mapping, it stays so after every line. -/
theorem C3_synchronous_persistence (cmd : Str) (st : State) (hw : st.file.writable = true) :
    (acceptedSave cmd = true →
      (HandleConsoleCommand cmd st).file.content
        = some (writeData.emit (HandleConsoleCommand cmd st).savedData)) ∧
    (startsWith cmd deletedataLit = true →
      (HandleConsoleCommand cmd st).savedData ≠ st.savedData →
      (HandleConsoleCommand cmd st).file.content
        = some (writeData.emit (HandleConsoleCommand cmd st).savedData)) ∧
    (acceptedSave cmd = false →
      ¬ (startsWith cmd deletedataLit = true ∧
          (HandleConsoleCommand cmd st).savedData ≠ st.savedData) →
      (HandleConsoleCommand cmd st).file = st.file ∧
      (HandleConsoleCommand cmd st).savedData = st.savedData) ∧
    (st.file.content = some (writeData.emit st.savedData) →
      (HandleConsoleCommand cmd st).file.content
        = some (writeData.emit (HandleConsoleCommand cmd st).savedData)) := by
  refine ⟨accepted_step cmd st hw, ?_, ?_, file_step cmd st hw⟩
  · intro _ hne
    rcases handle_cases cmd st with h | ⟨r, k, v, rfl, hs, h⟩ | ⟨r, k, rfl, hs, h⟩ |
      ⟨r, k, rfl, hs, hf, h⟩
    · rw [h] at hne; exact absurd rfl hne
    · rw [h]; exact writeData_content _ _ hw
    · rw [h] at hne; exact absurd rfl hne
    · rw [h]; exact writeData_content _ _ hw
  · intro hna hnd
    rcases handle_cases cmd st with h | ⟨r, k, v, rfl, hs, h⟩ | ⟨r, k, rfl, hs, h⟩ |
      ⟨r, k, rfl, hs, hf, h⟩
    · rw [h]; exact ⟨rfl, rfl⟩
    · have := (acceptedSave_iff _).2 ⟨r, k, v, rfl, hs⟩
      rw [this] at hna; exact absurd hna (by simp)
    · rw [h]; exact ⟨rfl, rfl⟩
    · exfalso
      apply hnd
      refine ⟨startsWith_append _ _, ?_⟩
      rw [h]
      exact erase_ne_of_present _ _ hf

/-- C3 at samples on the state holding `a ↦ 1`: an accepted save, a delete
that removes the entry, and a load, a rejected save and a delete of an absent
key that leave the file alone. -/
theorem C3_synchronous_persistence_witness :
    (HandleConsoleCommand "savedata b:2".toList stA).file.content = some "a:1\nb:2\n".toList ∧
    (HandleConsoleCommand "deletedata a".toList stA).file.content = some [] ∧
    (HandleConsoleCommand "loaddata a".toList stA).file = stA.file ∧
    (HandleConsoleCommand "savedata a:b:c".toList stA).file = stA.file ∧
    (HandleConsoleCommand "deletedata zz".toList stA).file = stA.file :=
  ⟨((C3_synchronous_persistence "savedata b:2".toList stA rfl).1 (by decide)).trans
      (by decide),
   ((C3_synchronous_persistence "deletedata a".toList stA rfl).2.1 (by decide)
      (by decide)).trans (by decide),
   ((C3_synchronous_persistence "loaddata a".toList stA rfl).2.2.1 (by decide)
      (by decide)).1,
   ((C3_synchronous_persistence "savedata a:b:c".toList stA rfl).2.2.1 (by decide)
      (by decide)).1,
   ((C3_synchronous_persistence "deletedata zz".toList stA rfl).2.2.1 (by decide)
      (by decide)).1⟩

/-- C4: for a line `"savedata " ++ r`, with `p` the trimmed `r`, split at its
first `':'` into `left` and `right`, and `keyPart r`, `valuePart r` the trimmed
`left` and `right`: (1) the split is at the first `':'`; (2) the line is
accepted exactly when `p` contains `':'`, key and value are non-empty and the
value contains no `':'`; (3) when accepted, the new mapping is the old one
with the key mapped to the value (overwriting) and every other key unchanged;
(4) otherwise nothing changes; (5) `savedata a:b` and `savedata  a : b ` both
store `a ↦ b`. -/
theorem C4_savedata (r : Str) (st : State) :
    (':' ∈ stripBlanks r → ∃ left right,
      stripBlanks r = left ++ ':' :: right ∧ ':' ∉ left ∧
      keyPart r = stripBlanks left ∧ valuePart r = stripBlanks right) ∧
    (acceptedSave (savedataLit ++ r) = true ↔
      (':' ∈ stripBlanks r ∧ keyPart r ≠ [] ∧ valuePart r ≠ [] ∧ ':' ∉ valuePart r)) ∧
    (acceptedSave (savedataLit ++ r) = true →
      (HandleConsoleCommand (savedataLit ++ r) st).savedData
        = assign st.savedData (keyPart r) (valuePart r) ∧
      ∀ k, find (HandleConsoleCommand (savedataLit ++ r) st).savedData k
        = if k = keyPart r then some (valuePart r) else find st.savedData k) ∧
    (acceptedSave (savedataLit ++ r) = false →
      HandleConsoleCommand (savedataLit ++ r) st = st) ∧
    (HandleConsoleCommand "savedata a:b".toList st).savedData
      = assign st.savedData "a".toList "b".toList ∧
    (HandleConsoleCommand "savedata  a : b ".toList st).savedData
      = assign st.savedData "a".toList "b".toList := by
  refine ⟨?_, accepted_line_iff r, ?_, ?_, ?_, ?_⟩
  · intro h
    exact ⟨_, _, (split_first_colon _ h).1, (split_first_colon _ h).2, rfl, rfl⟩
  · intro h
    obtain ⟨k, v, hs⟩ := (specSave_isSome_iff r).2 ((accepted_line_iff r).1 h)
    obtain ⟨rfl, rfl, _⟩ := specSave_some r k v hs
    rw [handle_save, hs]
    exact ⟨rfl, fun k => find_assign _ _ _ k⟩
  · intro h
    rw [handle_save]
    cases hs : specSave r with
    | none => rfl
    | some kv =>
      have := (accepted_line_iff r).2 ((specSave_isSome_iff r).1 ⟨kv.1, kv.2, hs⟩)
      rw [this] at h
      exact absurd h (by simp)
  · have h : specSave "a:b".toList = some ("a".toList, "b".toList) := by decide
    have := handle_save "a:b".toList st
    rw [h] at this
    exact congrArg State.savedData this
  · have h : specSave " a : b ".toList = some ("a".toList, "b".toList) := by decide
    have := handle_save " a : b ".toList st
    rw [h] at this
    exact congrArg State.savedData this

/-- C4 at samples on the state holding `a ↦ 1`: an overwrite of `a` and a
rejected line. -/
theorem C4_savedata_witness :
    (HandleConsoleCommand "savedata \ta : x y\t".toList stA).savedData
      = [("a".toList, "x y".toList)] ∧
    HandleConsoleCommand "savedata a::".toList stA = stA :=
  ⟨((C4_savedata "\ta : x y\t".toList stA).2.2.1 (by decide)).1.trans (by decide),
   (C4_savedata "a::".toList stA).2.2.2.1 (by decide)⟩

/-- C5: a savedata line whose key side or value side contains `':'` after the
split at the first `':'` leaves the whole state as it was: mapping, scratch
slot and file, with no call of `writeData`. -/
theorem C5_delimiter_rejection (r : Str) (st : State)
    (h : ':' ∈ keyPart r ∨ ':' ∈ valuePart r) :
    HandleConsoleCommand (savedataLit ++ r) st = st := by
  rw [handle_save]
  cases hs : specSave r with
  | none => rfl
  | some kv =>
    obtain ⟨h1, h2, _, _, _, h3, h4, _⟩ := specSave_some r kv.1 kv.2 hs
    rcases h with h | h
    · rw [← h1] at h; exact absurd h h3
    · rw [← h2] at h; exact absurd h h4

/-- C5 at the sample `savedata a:b:c`. -/
theorem C5_delimiter_rejection_witness :
    ':' ∈ valuePart "a:b:c".toList ∧
    HandleConsoleCommand "savedata a:b:c".toList stA = stA :=
  ⟨by decide, C5_delimiter_rejection "a:b:c".toList stA (Or.inr (by decide))⟩

/-- C6: a savedata line whose key is empty after trimming, whose value is
empty after trimming, or which has no `':'` at all leaves the whole state as
it was: mapping, scratch slot and file, with no call of `writeData`. -/
theorem C6_empty_side_rejection (r : Str) (st : State)
    (h : keyPart r = [] ∨ valuePart r = [] ∨ ':' ∉ r) :
    HandleConsoleCommand (savedataLit ++ r) st = st := by
  rw [handle_save]
  cases hs : specSave r with
  | none => rfl
  | some kv =>
    obtain ⟨h1, h2, h3, h4, h5, _⟩ := specSave_some r kv.1 kv.2 hs
    rcases h with h | h | h
    · rw [← h1] at h; exact absurd h h4
    · rw [← h2] at h; exact absurd h h5
    · exact absurd (mem_of_mem_stripBlanks _ _ h3) h

/-- C6 at the samples `savedata :b`, `savedata a: ` and `savedata a`. -/
theorem C6_empty_side_rejection_witness :
    HandleConsoleCommand "savedata :b".toList stA = stA ∧
    HandleConsoleCommand "savedata a: ".toList stA = stA ∧
    HandleConsoleCommand "savedata a".toList stA = stA :=
  ⟨C6_empty_side_rejection ":b".toList stA (Or.inl (by decide)),
   C6_empty_side_rejection "a: ".toList stA (Or.inr (Or.inl (by decide))),
   C6_empty_side_rejection "a".toList stA (Or.inr (Or.inr (by decide)))⟩

/-- C7, as stated, fails in its second half: on the state holding `a ↦ 1`
with `old` in the scratch slot, the key `"a "` is absent from the mapping, yet
`loaddata a ` puts `1` into the slot; and the key `x:y` is absent, yet
`loaddata x:y` leaves `old` in the slot. -/
theorem C7_absent_key_counterexample :
    find stA.savedData "a ".toList = none ∧
    (HandleConsoleCommand "loaddata a ".toList stA).retrievedData = "1".toList ∧
    find stA.savedData "x:y".toList = none ∧
    (HandleConsoleCommand "loaddata x:y".toList stA).retrievedData = "old".toList ∧
    (HandleConsoleCommand "loaddata a ".toList stA).retrievedData ≠ [] ∧
    (HandleConsoleCommand "loaddata x:y".toList stA).retrievedData ≠ [] := by
  decide

/-- C7 (amended): for every state, (1) after an accepted `savedata k:v` the
line `loaddata k` sets the scratch slot to the stored, trimmed `v`; (2) for
every key that is non-empty once trimmed of spaces and tabs, contains no `':'`,
and whose trimmed form is absent from the mapping, `loaddata key` sets the
scratch slot to the empty text whatever it held before. -/
theorem C7_load (st : State) :
    (∀ k v, acceptedSave (savedataLit ++ (k ++ ':' :: v)) = true →
      find (HandleConsoleCommand (savedataLit ++ (k ++ ':' :: v)) st).savedData (stripBlanks k)
        = some (stripBlanks v) ∧
      (HandleConsoleCommand (loaddataLit ++ k)
        (HandleConsoleCommand (savedataLit ++ (k ++ ':' :: v)) st)).retrievedData
        = stripBlanks v) ∧
    (∀ key, stripBlanks key ≠ [] → ':' ∉ key → find st.savedData (stripBlanks key) = none →
      (HandleConsoleCommand (loaddataLit ++ key) st).retrievedData = []) := by
  constructor
  · intro k v hacc
    obtain ⟨r', k', v', he, hs⟩ := (acceptedSave_iff _).1 hacc
    rw [← savedata_line_eq _ _ he] at hs
    have hkv := specSave_append k v (k', v') hs
    simp only [Prod.mk.injEq] at hkv
    obtain ⟨rfl, rfl⟩ := hkv
    obtain ⟨_, _, _, hne, _, hnc, _⟩ := specSave_some _ _ _ hs
    have hkey : specKey k = some (stripBlanks k) := by
      simp [specKey, hne, hnc]
    rw [handle_load, hkey, handle_save, hs]
    simp [find_assign]
  · intro key h1 h2 h3
    rw [handle_load, specKey_of_valid key h1 h2]
    simp [h3]

/-- C7 at samples: `savedata  a : 1 ` then `loaddata  a `, and a load of the
absent key `zz` over the slot holding `old`. -/
theorem C7_load_witness :
    (HandleConsoleCommand "loaddata  a ".toList
      (HandleConsoleCommand "savedata  a : 1 ".toList stA)).retrievedData = "1".toList ∧
    stA.retrievedData = "old".toList ∧
    (HandleConsoleCommand "loaddata zz".toList stA).retrievedData = [] :=
  ⟨(((C7_load stA).1 " a ".toList " 1 ".toList (by decide)).2).trans (by decide),
   rfl,
   (C7_load stA).2 "zz".toList (by decide) (by decide) (by decide)⟩

/-- C8, as stated, fails in its first half: on the state holding `a ↦ 1` the
key `"a "` is not present in the mapping, yet `deletedata a ` removes the
entry `a` and calls `writeData`. -/
theorem C8_absent_key_counterexample :
    find stA.savedData "a ".toList = none ∧
    (HandleConsoleCommand "deletedata a ".toList stA).savedData = [] ∧
    (HandleConsoleCommand "deletedata a ".toList stA).savedData ≠ stA.savedData ∧
    stA.file.writeCalls = 1 ∧
    (HandleConsoleCommand "deletedata a ".toList stA).file.writeCalls = 2 := by
  decide

/-- C8 (amended): for every state and every key whose form trimmed of spaces
and tabs is not present in the mapping, `deletedata key` leaves the whole state
as it was (mapping, file, no call of `writeData`); and for every key, handling
the same deletedata line twice leaves the very state that handling it once
leaves: same mapping, same file content, no second call of `writeData`. -/
theorem C8_delete (key : Str) (st : State) :
    (find st.savedData (stripBlanks key) = none →
      HandleConsoleCommand (deletedataLit ++ key) st = st) ∧
    HandleConsoleCommand (deletedataLit ++ key) (HandleConsoleCommand (deletedataLit ++ key) st)
      = HandleConsoleCommand (deletedataLit ++ key) st :=
  ⟨delete_absent key st, delete_twice key st⟩

/-- C8 at samples on the state holding `a ↦ 1`: a delete of the absent key
`zz`, and `deletedata a` handled twice. -/
theorem C8_delete_witness :
    HandleConsoleCommand "deletedata zz".toList stA = stA ∧
    HandleConsoleCommand "deletedata a".toList (HandleConsoleCommand "deletedata a".toList stA)
      = HandleConsoleCommand "deletedata a".toList stA ∧
    (HandleConsoleCommand "deletedata a".toList stA).savedData = [] :=
  ⟨(C8_delete "zz".toList stA).1 (by decide), (C8_delete "a".toList stA).2, by decide⟩

/-- C9: for every state and every line, handling the line twice in a row
yields the same mapping, the same scratch slot and the same file content as
handling it once; and a loaddata line leaves the mapping and the file as they
were before it, so that only the scratch slot can differ. -/
theorem C9_dispatch_idempotent (l : Str) (st : State) :
    (HandleConsoleCommand l (HandleConsoleCommand l st)).savedData
      = (HandleConsoleCommand l st).savedData ∧
    (HandleConsoleCommand l (HandleConsoleCommand l st)).retrievedData
      = (HandleConsoleCommand l st).retrievedData ∧
    (HandleConsoleCommand l (HandleConsoleCommand l st)).file.content
      = (HandleConsoleCommand l st).file.content ∧
    (startsWith l loaddataLit = true →
      (HandleConsoleCommand l st).savedData = st.savedData ∧
      (HandleConsoleCommand l st).file = st.file) := by
  rcases handle_cases l st with h | ⟨r, k, v, rfl, hs, h⟩ | ⟨r, k, rfl, hs, h⟩ |
    ⟨r, k, rfl, hs, hf, h⟩
  · rw [h, h]
    exact ⟨rfl, rfl, rfl, fun _ => ⟨rfl, rfl⟩⟩
  · refine ⟨?_, ?_, ?_, ?_⟩
    · rw [handle_save r (HandleConsoleCommand _ st), hs, h]
      exact assign_assign _ _ _
    · rw [handle_save r (HandleConsoleCommand _ st), hs, h]
    · rw [handle_save r (HandleConsoleCommand _ st), hs, h]
      show (writeData (writeData st.file _) (assign (assign st.savedData k v) k v)).content = _
      rw [assign_assign]
      exact writeData_twice_content _ _
    · intro hl
      obtain ⟨r', he⟩ := (startsWith_iff _ _).1 hl
      have := savedata_ne_loaddata r'
      rw [← he, startsWith_append] at this
      exact absurd this (by simp)
  · refine ⟨?_, ?_, ?_, ?_⟩
    · rw [handle_load r (HandleConsoleCommand _ st), hs, h]
    · rw [handle_load r (HandleConsoleCommand _ st), hs, h]
    · rw [handle_load r (HandleConsoleCommand _ st), hs, h]
    · intro _
      rw [h]
      exact ⟨rfl, rfl⟩
  · have h2 := delete_twice r st
    rw [h2]
    refine ⟨rfl, rfl, rfl, ?_⟩
    intro hl
    have := loaddata_ne_deletedata r
    rw [hl] at this
    exact absurd this (by simp)

/-- C9 at samples on the state holding `a ↦ 1`: a save handled twice, and a
load, which changes the scratch slot only. -/
theorem C9_dispatch_idempotent_witness :
    (HandleConsoleCommand "savedata b:2".toList
      (HandleConsoleCommand "savedata b:2".toList stA)).savedData
      = (HandleConsoleCommand "savedata b:2".toList stA).savedData ∧
    (HandleConsoleCommand "loaddata a".toList stA).savedData = stA.savedData ∧
    (HandleConsoleCommand "loaddata a".toList stA).file = stA.file ∧
    (HandleConsoleCommand "loaddata a".toList stA).retrievedData = "1".toList :=
  ⟨(C9_dispatch_idempotent "savedata b:2".toList stA).1,
   ((C9_dispatch_idempotent "loaddata a".toList stA).2.2.2 (by decide)).1,
   ((C9_dispatch_idempotent "loaddata a".toList stA).2.2.2 (by decide)).2,
   by decide⟩

/-- C10: a line that begins with none of the literals `"savedata "`,
`"loaddata "`, `"deletedata "` (compared character by character, trailing
space included, from the first character of the line) leaves the whole state
as it was: mapping, scratch slot and file. -/
theorem C10_unknown_line (cmd : Str) (st : State)
    (h1 : ¬ savedataLit <+: cmd) (h2 : ¬ loaddataLit <+: cmd) (h3 : ¬ deletedataLit <+: cmd) :
    HandleConsoleCommand cmd st = st :=
  handle_other cmd st (startsWith_eq_false_of_not_isPrefix _ _ h1)
    (startsWith_eq_false_of_not_isPrefix _ _ h2) (startsWith_eq_false_of_not_isPrefix _ _ h3)

/-- C10 at the samples `unknown cmd`, a literal in another case, a literal
without its trailing space, and a line with a blank before the literal. -/
theorem C10_unknown_line_witness :
    HandleConsoleCommand "unknown cmd".toList stA = stA ∧
    HandleConsoleCommand "SaveData a:b".toList stA = stA ∧
    HandleConsoleCommand "savedata".toList stA = stA ∧
    HandleConsoleCommand "deletedata".toList stA = stA ∧
    HandleConsoleCommand " savedata a:b".toList stA = stA ∧
    HandleConsoleCommand "\tdeletedata a".toList stA = stA :=
  ⟨C10_unknown_line "unknown cmd".toList stA (by decide) (by decide) (by decide),
   C10_unknown_line "SaveData a:b".toList stA (by decide) (by decide) (by decide),
   C10_unknown_line "savedata".toList stA (by decide) (by decide) (by decide),
   C10_unknown_line "deletedata".toList stA (by decide) (by decide) (by decide),
   C10_unknown_line " savedata a:b".toList stA (by decide) (by decide) (by decide),
   C10_unknown_line "\tdeletedata a".toList stA (by decide) (by decide) (by decide)⟩

/-- C11: for a line `"loaddata " ++ r` or `"deletedata " ++ r` the key is `r`
trimmed of leading and trailing spaces and tabs. (1) If that key is empty or
contains `':'`, either line leaves the whole state as it was. (2) Otherwise
loaddata puts the value found under that key into the scratch slot (the empty
text when there is none) and changes nothing else, and deletedata removes
that key: afterwards it is absent, every other key is as before, and the file
is rewritten exactly when the key was present. (3) A loaddata line never
changes the mapping or the file. -/
theorem C11_key_parsing (r : Str) (st : State) :
    ((stripBlanks r = [] ∨ ':' ∈ stripBlanks r) →
      HandleConsoleCommand (loaddataLit ++ r) st = st ∧
      HandleConsoleCommand (deletedataLit ++ r) st = st) ∧
    ((stripBlanks r ≠ [] ∧ ':' ∉ stripBlanks r) →
      HandleConsoleCommand (loaddataLit ++ r) st
        = { st with retrievedData := (find st.savedData (stripBlanks r)).getD [] } ∧
      HandleConsoleCommand (deletedataLit ++ r) st
        = (if (find st.savedData (stripBlanks r)).isSome then
            { st with savedData := (erase st.savedData (stripBlanks r)).1,
                      file := writeData st.file (erase st.savedData (stripBlanks r)).1 }
          else st) ∧
      (∀ k, find (HandleConsoleCommand (deletedataLit ++ r) st).savedData k
        = if k = stripBlanks r then none else find st.savedData k)) ∧
    ((HandleConsoleCommand (loaddataLit ++ r) st).savedData = st.savedData ∧
      (HandleConsoleCommand (loaddataLit ++ r) st).file = st.file) := by
  refine ⟨?_, ?_, load_frame r st⟩
  · intro h
    rw [handle_load, handle_delete, specKey_eq_none r h]
    exact ⟨rfl, rfl⟩
  · rintro ⟨h1, h2⟩
    rw [handle_load, handle_delete, specKey_eq_some r h1 h2]
    refine ⟨rfl, rfl, ?_⟩
    intro k
    show find (if (find st.savedData (stripBlanks r)).isSome = true then _ else st).savedData k = _
    by_cases hp : (find st.savedData (stripBlanks r)).isSome = true
    · rw [if_pos hp]
      exact find_erase _ _ k
    · rw [if_neg hp]
      by_cases hk : k = stripBlanks r
      · rw [if_pos hk, hk]
        cases hf : find st.savedData (stripBlanks r) with
        | none => rfl
        | some v => rw [hf] at hp; exact absurd rfl hp
      · rw [if_neg hk]

/-- C11 at samples on the state holding `a ↦ 1` with `old` in the scratch
slot: rejected keys, a load of ` a ` and a delete of `a\t`. -/
theorem C11_key_parsing_witness :
    HandleConsoleCommand "loaddata  \t ".toList stA = stA ∧
    HandleConsoleCommand "deletedata a:".toList stA = stA ∧
    (HandleConsoleCommand "loaddata  a ".toList stA).retrievedData = "1".toList ∧
    (HandleConsoleCommand "deletedata a\t".toList stA).savedData = [] :=
  ⟨((C11_key_parsing " \t ".toList stA).1 (Or.inl (by decide))).1,
   ((C11_key_parsing "a:".toList stA).1 (Or.inr (by decide))).2,
   (congrArg State.retrievedData
      ((C11_key_parsing " a ".toList stA).2.1 ⟨by decide, by decide⟩).1).trans (by decide),
   (congrArg State.savedData
      ((C11_key_parsing "a\t".toList stA).2.1 ⟨by decide, by decide⟩).2.1).trans (by decide)⟩

/-- C12: `readData` is a total function (it yields a mapping for every file),
and a malformed line (no `':'`, or nothing before its first `':'`)
contributes nothing: (1) one round of the loop leaves the mapping as it was;
(2) the loop over `L1 ++ [b] ++ L2` yields what the loop over `L1 ++ L2`
yields; (3) so do two files whose lines are `L1 ++ [b] ++ L2` and `L1 ++ L2`;
(4) the file with the lines `a:1` and `nocolon` decodes to `a ↦ 1` alone. -/
theorem C12_malformed_line (L1 L2 : List Str) (b : Str) (prior prior' : Store)
    (hb : Malformed b) :
    (∀ d, readData.step d b = d) ∧
    (L1 ++ [b] ++ L2).foldl readData.step [] = (L1 ++ L2).foldl readData.step [] ∧
    (∀ text text', getLines text = L1 ++ [b] ++ L2 → getLines text' = L1 ++ L2 →
      readData (diskOf text) prior = readData (diskOf text') prior') ∧
    readData (diskOf "a:1\nnocolon\n".toList) prior = [("a".toList, "1".toList)] := by
  refine ⟨fun d => step_malformed d b hb, foldl_step_skip L1 L2 b hb [], ?_, ?_⟩
  · intro text text' h1 h2
    rw [readData_diskOf, readData_diskOf, h1, h2]
    exact foldl_step_skip L1 L2 b hb []
  · rw [readData_diskOf]
    decide

/-- C12 at a sample: the lines `a:1`, `:x`, `b:2` against the lines `a:1`,
`b:2`. -/
theorem C12_malformed_line_witness :
    Malformed ":x".toList ∧
    getLines "a:1\n:x\nb:2\n".toList = ["a:1".toList] ++ [":x".toList] ++ ["b:2".toList] ∧
    readData (diskOf "a:1\n:x\nb:2\n".toList) mapZ = readData (diskOf "a:1\nb:2".toList) [] ∧
    readData (diskOf "a:1\n:x\nb:2\n".toList) mapZ = mapAB :=
  ⟨by decide, by decide,
   (C12_malformed_line ["a:1".toList] ["b:2".toList] ":x".toList mapZ [] (by decide)).2.2.1
     "a:1\n:x\nb:2\n".toList "a:1\nb:2".toList (by decide) (by decide),
   by decide⟩

/-- C13: when the lines of the file are `L1`, then the valid line `k:v`, then
lines `L2` none of which is a valid line for the key `k`, the mapping
`readData` produces maps `k` to `v`: the last valid line for a key decides its
value, whatever `L1` holds for that key. -/
theorem C13_last_line_wins (L1 L2 : List Str) (k v : Str)
    (hk : k ≠ []) (hkc : ':' ∉ k) (hvc : ':' ∉ v)
    (hlast : ∀ l ∈ L2, ∀ v', ':' ∉ v' → l ≠ k ++ ':' :: v') :
    find ((L1 ++ [k ++ ':' :: v] ++ L2).foldl readData.step []) k = some v ∧
    (∀ text prior, getLines text = L1 ++ [k ++ ':' :: v] ++ L2 →
      find (readData (diskOf text) prior) k = some v) := by
  refine ⟨find_foldl_step_last L1 L2 k v hk hkc hvc hlast [], ?_⟩
  intro text prior h
  rw [readData_diskOf, h]
  exact find_foldl_step_last L1 L2 k v hk hkc hvc hlast []

/-- C13 at a sample: of the lines `k:1`, `z:0`, `k:2:3`, `k:4`, `y:5` the last
valid one for `k` is `k:4`. -/
theorem C13_last_line_wins_witness :
    getLines textDup
      = ["k:1".toList, "z:0".toList, "k:2:3".toList] ++ ["k".toList ++ ':' :: "4".toList]
          ++ ["y:5".toList] ∧
    find (readData (diskOf textDup) mapZ) "k".toList = some "4".toList :=
  ⟨by decide,
   (C13_last_line_wins ["k:1".toList, "z:0".toList, "k:2:3".toList] ["y:5".toList]
      "k".toList "4".toList (by decide) (by decide) (by decide)
      (by
        intro l hl v' _ he
        simp only [List.mem_singleton] at hl
        subst hl
        have := congrArg List.head? he
        simp at this)).2 textDup mapZ (by decide)⟩

/-- C14: for every mapping `m`, valid or not, the text `writeData` emits is
the concatenation of the lines `key:value\n` of exactly those entries whose
key is non-empty and whose key and value contain no `':'`, in iteration
order; an entry with an empty key or a `':'` in key or value contributes
nothing; and encoding `m` equals encoding `m` with those entries removed.
On a writable file that text becomes the content of the file. -/
theorem C14_encode_output (m : Store) (d : Disk) :
    writeData.emit m = ((m.filter emittable).map entryLine).flatten ∧
    (∀ e rest, emittable e = false → writeData.emit (e :: rest) = writeData.emit rest) ∧
    (∀ e rest, emittable e = true →
      writeData.emit (e :: rest) = e.1 ++ ':' :: e.2 ++ '\n' :: writeData.emit rest) ∧
    writeData.emit m = writeData.emit (m.filter emittable) ∧
    (d.writable = true →
      (writeData d m).content = some ((m.filter emittable).map entryLine).flatten) := by
  refine ⟨emit_eq_flatten m, ?_, ?_, ?_, ?_⟩
  · intro e rest h
    rw [emit_cons, h]
    simp
  · intro e rest h
    rw [emit_cons, h]
    simp [entryLine]
  · rw [emit_eq_flatten m, emit_eq_flatten (m.filter emittable), List.filter_filter]
    simp
  · intro hw
    rw [writeData_content d m hw, emit_eq_flatten]

/-- C14 at a sample: of five entries, three of them invalid, two lines are
written. -/
theorem C14_encode_output_witness :
    (writeData disk0 mapMixed).content = some "a:1\ne:\n".toList :=
  ((C14_encode_output mapMixed disk0).2.2.2.2 rfl).trans (by decide)

/-- C15, as stated, fails: `readData` splits the line `a:b:c` at its first
`':'` into the key `a` and the value `b:c`, which contains `':'`; the key is
non-empty, so the line reaches the defensive test and is skipped by it instead
of being stored. -/
theorem C15_second_colon_counterexample :
    strFind lineTwoColons ':' = some 1 ∧
    substr lineTwoColons 0 1 = "a".toList ∧
    substrFrom lineTwoColons (1 + 1) = "b:c".toList ∧
    containsColon (substrFrom lineTwoColons (1 + 1)) = true ∧
    readData.step mapZ lineTwoColons = mapZ ∧
    readData.step mapZ lineTwoColons ≠ assign mapZ "a".toList "b:c".toList := by
  decide

/-- C15 (amended): for every line in which `readData` finds a first `':'` at
`pos`, the line is the key, the `':'`, the value; the key contains no `':'`;
the value contains `':'` exactly when the line holds at least two `':'`; and
the round stores the entry when the key is non-empty and the value has no
`':'`, and skips the line otherwise, so that the defensive skip is taken
exactly for the lines with a non-empty key and a second `':'`. -/
theorem C15_first_split (line : Str) (pos : Nat) (d : Store)
    (h : strFind line ':' = some pos) :
    line = substr line 0 pos ++ ':' :: substrFrom line (pos + 1) ∧
    containsColon (substr line 0 pos) = false ∧
    (containsColon (substrFrom line (pos + 1)) = true ↔ 2 ≤ line.count ':') ∧
    readData.step d line
      = (if substr line 0 pos ≠ [] ∧ containsColon (substrFrom line (pos + 1)) = false then
          assign d (substr line 0 pos) (substrFrom line (pos + 1))
        else d) := by
  obtain ⟨hl, hk⟩ := strFind_some_decompose line pos h
  have hkc := (containsColon_eq_false_iff _).2 hk
  refine ⟨hl, hkc, ?_, ?_⟩
  · rw [containsColon_iff]
    have hc := count_colon_split _ (substrFrom line (pos + 1)) hk
    rw [← hl] at hc
    rw [hc]
    constructor
    · intro hm
      have := List.count_pos_iff.2 hm
      omega
    · intro h2
      exact List.count_pos_iff.1 (by omega)
  · have hne : line.isEmpty = false := by
      cases line with
      | nil => simp [strFind] at h
      | cons a b => rfl
    unfold readData.step
    simp only [hne, h, hkc, Bool.false_or]
    by_cases hke : substr line 0 pos = []
    · simp [hke]
    · have : (substr line 0 pos).isEmpty = false := by
        cases hs : substr line 0 pos with
        | nil => exact absurd hs hke
        | cons a b => rfl
      cases hv : containsColon (substrFrom line (pos + 1)) <;> simp [this, hke]

/-- C15 at samples: the line `a:b` is stored, the line `a:b:c` is not. -/
theorem C15_first_split_witness :
    readData.step mapZ "a:b".toList = assign mapZ "a".toList "b".toList ∧
    (containsColon (substrFrom lineTwoColons (1 + 1)) = true ↔ 2 ≤ lineTwoColons.count ':') :=
  ⟨((C15_first_split "a:b".toList 1 mapZ (by decide)).2.2.2).trans (by decide),
   (C15_first_split lineTwoColons 1 mapZ (by decide)).2.2.1⟩

/-- C16: when the file cannot be opened `readData` leaves the mapping exactly
as it was; when it can be opened the result is the decoding of the content
alone, the same whatever the mapping held before (replace, not merge). -/
theorem C16_store_load (f : Disk) (data other : Store) :
    (f.content = none → readData f data = data) ∧
    (∀ text, f.content = some text →
      readData f data = (getLines text).foldl readData.step [] ∧
      readData f data = readData f other ∧
      readData f data = readData f []) := by
  constructor
  · intro h
    simp [readData, h]
  · intro text h
    rw [readData_of_content f data text h, readData_of_content f other text h,
      readData_of_content f [] text h]
    exact ⟨rfl, rfl, rfl⟩

/-- C16 at samples: a missing file over the mapping `z ↦ 9`, and the file
`a:1`, `b:2` over the same mapping. -/
theorem C16_store_load_witness :
    readData disk0 mapZ = mapZ ∧
    readData (diskOf "a:1\nb:2\n".toList) mapZ = mapAB ∧
    find (readData (diskOf "a:1\nb:2\n".toList) mapZ) "z".toList = none :=
  ⟨(C16_store_load disk0 mapZ []).1 rfl,
   (((C16_store_load (diskOf "a:1\nb:2\n".toList) mapZ []).2 "a:1\nb:2\n".toList rfl).1).trans
     (by decide),
   by decide⟩

/-- C17: for every file content `b` (any text), every entry of the decoded
mapping has a non-empty key and neither key nor value contains `':'` or a line
break, the keys are distinct, and decoding the encoding of the decoded
mapping yields the decoded mapping again. -/
theorem C17_decode_normalises (f d : Disk) (b : Str) (prior prior' : Store)
    (hf : f.content = some b) (hw : d.writable = true) :
    (∀ e ∈ readData f prior,
      e.1 ≠ [] ∧ ':' ∉ e.1 ∧ ':' ∉ e.2 ∧ '\n' ∉ e.1 ∧ '\n' ∉ e.2) ∧
    (keys (readData f prior)).Nodup ∧
    (∀ k, find (readData (writeData d (readData f prior)) prior') k
      = find (readData f prior) k) := by
  obtain ⟨hnd, hok⟩ := decoded_inv f b prior hf
  refine ⟨hok, hnd, ?_⟩
  intro k
  rw [readData_of_content _ prior' _ (writeData_content d _ hw)]
  exact decode_emit _ hnd hok k

/-- C17 at a sample: a file with malformed lines, a repeated key, a line with
two `':'`, an empty line and an unterminated last line. -/
theorem C17_decode_normalises_witness :
    readData (diskOf textMessy) mapZ
      = [("a".toList, "2".toList), ("e".toList, []), ("f".toList, "g".toList)] ∧
    (∀ k, find (readData (writeData disk0 (readData (diskOf textMessy) mapZ)) []) k
      = find (readData (diskOf textMessy) mapZ) k) :=
  ⟨by decide, (C17_decode_normalises (diskOf textMessy) disk0 textMessy mapZ [] rfl rfl).2.2⟩

/-- C18: starting from the empty mapping, after any sequence of command lines
handled by `HandleConsoleCommand`, every entry of the mapping has a non-empty
key and a non-empty value, neither contains `':'`, and neither begins or ends
with a space or a tab. -/
theorem C18_reachable_invariant (cmds : List Str) (d : Disk) :
    ∀ e ∈ (run cmds (freshState d)).savedData,
      e.1 ≠ [] ∧ e.2 ≠ [] ∧ ':' ∉ e.1 ∧ ':' ∉ e.2 ∧
      (∀ c, e.1.head? = some c → c ≠ ' ' ∧ c ≠ '\t') ∧
      (∀ c, e.1.getLast? = some c → c ≠ ' ' ∧ c ≠ '\t') ∧
      (∀ c, e.2.head? = some c → c ≠ ' ' ∧ c ≠ '\t') ∧
      (∀ c, e.2.getLast? = some c → c ≠ ' ' ∧ c ≠ '\t') := by
  intro e he
  obtain ⟨h1, h2, h3, h4, h5, h6⟩ :=
    stored_run cmds (freshState d) (by simp [freshState]) e he
  have hb : ∀ c, isBlank c = false → c ≠ ' ' ∧ c ≠ '\t' := by
    intro c hc
    simpa [isBlank] using hc
  exact ⟨h1, h2, h3, h4, fun c hc => hb c (h5.1 c hc), fun c hc => hb c (h5.2 c hc),
    fun c hc => hb c (h6.1 c hc), fun c hc => hb c (h6.2 c hc)⟩

/-- C18 at a sample: the entry left by a session of padded saves. -/
theorem C18_reachable_invariant_witness :
    (run session (freshState disk0)).savedData = [("b".toList, "2".toList)] ∧
    ("b".toList ≠ [] ∧ "2".toList ≠ [] ∧ ':' ∉ "b".toList ∧ ':' ∉ "2".toList) :=
  ⟨by decide,
   let h := C18_reachable_invariant session disk0 ("b".toList, "2".toList) (by decide)
   ⟨h.1, h.2.1, h.2.2.1, h.2.2.2.1⟩⟩

/-- C19: every savedata line and every deletedata line, accepted or rejected,
leaves the scratch slot as it was; in particular, when the key of `k` is
stored with the value `v`, after `loaddata k` followed by `deletedata k` the
key is gone from the mapping and the scratch slot still holds `v`. -/
theorem C19_scratch_frame (r : Str) (st : State) :
    (HandleConsoleCommand (savedataLit ++ r) st).retrievedData = st.retrievedData ∧
    (HandleConsoleCommand (deletedataLit ++ r) st).retrievedData = st.retrievedData ∧
    (∀ v, stripBlanks r ≠ [] → ':' ∉ stripBlanks r →
      find st.savedData (stripBlanks r) = some v →
      (HandleConsoleCommand (deletedataLit ++ r)
        (HandleConsoleCommand (loaddataLit ++ r) st)).retrievedData = v ∧
      find (HandleConsoleCommand (deletedataLit ++ r)
        (HandleConsoleCommand (loaddataLit ++ r) st)).savedData (stripBlanks r) = none) := by
  refine ⟨save_frame r st, delete_frame r st, ?_⟩
  intro v h1 h2 hf
  constructor
  · rw [delete_frame, handle_load, specKey_eq_some r h1 h2]
    simp [hf]
  · have hl : HandleConsoleCommand (loaddataLit ++ r) st = { st with retrievedData := v } := by
      rw [handle_load, specKey_eq_some r h1 h2]
      simp [hf]
    have hp : (find ({ st with retrievedData := v } : State).savedData
        (stripBlanks r)).isSome = true := by
      show (find st.savedData (stripBlanks r)).isSome = true
      rw [hf]; rfl
    rw [hl, handle_delete, specKey_eq_some r h1 h2]
    simp only [hp, if_true]
    rw [find_erase]
    simp

/-- C19 at a sample on the state holding `a ↦ 1` with `old` in the scratch
slot: a save, a rejected save and a delete keep `old`; a load then a delete of
`a` leave `1`. -/
theorem C19_scratch_frame_witness :
    (HandleConsoleCommand "savedata b:2".toList stA).retrievedData = "old".toList ∧
    (HandleConsoleCommand "savedata b".toList stA).retrievedData = "old".toList ∧
    (HandleConsoleCommand "deletedata a".toList stA).retrievedData = "old".toList ∧
    (HandleConsoleCommand "deletedata a".toList
      (HandleConsoleCommand "loaddata a".toList stA)).retrievedData = "1".toList ∧
    find (HandleConsoleCommand "deletedata a".toList
      (HandleConsoleCommand "loaddata a".toList stA)).savedData "a".toList = none :=
  ⟨(C19_scratch_frame "b:2".toList stA).1, (C19_scratch_frame "b".toList stA).1,
   (C19_scratch_frame "a".toList stA).2.1,
   ((C19_scratch_frame "a".toList stA).2.2 "1".toList (by decide) (by decide) (by decide)).1,
   ((C19_scratch_frame "a".toList stA).2.2 "1".toList (by decide) (by decide) (by decide)).2⟩

/-- C20: for every text `s`, (1) `trimW s` is `s` without its longest leading
and its longest trailing run of spaces and tabs; (2) it is the empty text when
`s` is empty or made of spaces and tabs only; (3) every element it reads is
within bounds, its `substr` starts within the text and its unsigned
subtractions do not wrap: the checked run succeeds with the same result, and
the first loop has left through its condition within its fuel; (4) `trimW` is
idempotent; (5) the result neither begins nor ends with a space or a tab. -/
theorem C20_trimW (s : Str) :
    trimW s = (s.dropWhile isBlank).rdropWhile isBlank ∧
    ((∀ c ∈ s, c = ' ' ∨ c = '\t') → trimW s = []) ∧
    (trimWChecked s = some (trimW s) ∧
      ¬ (trimW.skipLeading s s.length 0 < s.length ∧
          isBlank (charAt s (trimW.skipLeading s s.length 0)) = true)) ∧
    trimW (trimW s) = trimW s ∧
    (∀ c, (trimW s).head? = some c → c ≠ ' ' ∧ c ≠ '\t') ∧
    (∀ c, (trimW s).getLast? = some c → c ≠ ' ' ∧ c ≠ '\t') := by
  have hb : ∀ c, isBlank c = false → c ≠ ' ' ∧ c ≠ '\t' := by
    intro c hc
    simpa [isBlank] using hc
  have he := noBlankEnds_stripBlanks s
  rw [← trimW_eq_stripBlanks] at he
  refine ⟨trimW_eq_stripBlanks s, ?_, ⟨trimWChecked_eq s, (skipLeading_exit s).2.1⟩, ?_,
    fun c hc => hb c (he.1 c hc), fun c hc => hb c (he.2 c hc)⟩
  · intro h
    rw [trimW_eq_stripBlanks]
    apply stripBlanks_eq_nil_of_blank
    intro c hc
    rcases h c hc with rfl | rfl <;> rfl
  · rw [trimW_eq_stripBlanks, trimW_eq_stripBlanks, stripBlanks_idem]

/-- C20 at samples: a padded text, a text of blanks, the empty text. -/
theorem C20_trimW_witness :
    trimW " \t a b\t ".toList = "a b".toList ∧
    trimW " \t ".toList = [] ∧
    trimW [] = [] ∧
    trimWChecked " \t a b\t ".toList = some "a b".toList :=
  ⟨by decide, (C20_trimW " \t ".toList).2.1 (by decide), (C20_trimW []).2.1 (by simp),
   ((C20_trimW " \t a b\t ".toList).2.2.1.1).trans (by decide)⟩

end OmniStore
